import Mathlib

/-!
# Verification of nbdime's notebook diffing core

Shallow embedding of `nbdime/diffing/notebooks.py` and
`nbdime/webapp/nbdimeserver.py`.

Python values (notebook documents, cells, metadata) are modelled by the
inductive type `Value`; Python's `==` on such values is `pyEq` (dicts compare
order-insensitively, lists pointwise).  Python dicts are association lists
with unique keys; a fallible Python expression (KeyError / TypeError) is
modelled by `Option`.

The generic structural differ (`nbdime.diffing.generic.diff`) and the
multilevel snake computer (`nbdime.diffing.snakes.compute_snakes_multilevel`)
are not part of the given sources; they are modelled from the specification
(§4.2 and §4.3) and marked as such in their doc comments.  Everything else is
translated from the Python sources.
-/

set_option autoImplicit false

namespace Nbdime

/-- A Python (JSON-like) value: string, integer, boolean, None, list, dict.
Dicts are association lists (insertion order kept, keys unique in any
well-formed value).  Model simplification: Python's numeric-tower equalities
(`True == 1`) are not reflected; booleans and integers are distinct. -/
inductive Value where
  | str : String → Value
  | int : Int → Value
  | bool : Bool → Value
  | null : Value
  | arr : List Value → Value
  | obj : List (String × Value) → Value

/-- Dict lookup: first binding of the key (well-formed dicts have no
duplicate keys, so "first" is "the" binding). -/
def lookupV (k : String) : List (String × Value) → Option Value
  | [] => none
  | (k1, v) :: rest => if k1 = k then some v else lookupV k rest

theorem sizeOf_lookupV {k : String} :
    ∀ {l : List (String × Value)} {v : Value}, lookupV k l = some v → sizeOf v < sizeOf l := by
  intro l
  induction l with
  | nil => intro v h; simp [lookupV] at h
  | cons p rest ih =>
    intro v h
    match p with
    | (k1, w) =>
      by_cases hk : k1 = k
      · simp [lookupV, hk] at h
        subst h
        simp
        omega
      · simp [lookupV, hk] at h
        have := ih h
        simp
        omega

/- Python `==` on values (`pyEq`), Python `==` on lists (`pyEqList`:
lengths equal and elementwise equal), and the per-binding check of Python
`==` on dicts (`pyEqObjGo`: every binding of the first dict has a matching,
equal binding in the second). -/
mutual

/-- Python `==` on two values. -/
def pyEq : Value → Value → Bool
  | Value.str a, Value.str b => a = b
  | Value.int a, Value.int b => a = b
  | Value.bool a, Value.bool b => a = b
  | Value.null, Value.null => true
  | Value.arr xs, Value.arr ys => pyEqList xs ys
  | Value.obj xs, Value.obj ys => xs.length = ys.length && pyEqObjGo xs ys
  | _, _ => false
termination_by v w => sizeOf v + sizeOf w

/-- Python `==` on two lists, elementwise. -/
def pyEqList : List Value → List Value → Bool
  | [], [] => true
  | x :: xs, y :: ys => pyEq x y && pyEqList xs ys
  | _, _ => false
termination_by v w => sizeOf v + sizeOf w

/-- Per-binding part of Python `==` on dicts. -/
def pyEqObjGo : List (String × Value) → List (String × Value) → Bool
  | [], _ => true
  | (k, v) :: rest, ys =>
    (match h : lookupV k ys with
     | some w => pyEq v w
     | none => false)
    && pyEqObjGo rest ys
termination_by v w => sizeOf v + sizeOf w
decreasing_by
  all_goals simp
  all_goals try omega
  all_goals (have hlk := sizeOf_lookupV h; omega)

end

/-- Python `==` between two dicts. -/
def pyEqObj (xs ys : List (String × Value)) : Bool :=
  xs.length = ys.length && pyEqObjGo xs ys

/-- Is the key present in the association list? -/
def keyMem (k : String) : List (String × Value) → Bool
  | [] => false
  | (k1, _) :: rest => k1 = k || keyMem k rest

/-- No duplicate keys among the bindings. -/
def keysNodup : List (String × Value) → Bool
  | [] => true
  | (k, _) :: rest => !keyMem k rest && keysNodup rest

mutual

/-- Well-formed value: every dict inside has pairwise distinct keys (true of
any value parsed from JSON / produced by nbformat). -/
def wfV : Value → Bool
  | Value.arr xs => wfList xs
  | Value.obj xs => keysNodup xs && wfObjGo xs
  | _ => true

/-- Well-formedness of every element of a list. -/
def wfList : List Value → Bool
  | [] => true
  | x :: xs => wfV x && wfList xs

/-- Well-formedness of every value bound in a dict. -/
def wfObjGo : List (String × Value) → Bool
  | [] => true
  | (_, v) :: rest => wfV v && wfObjGo rest

end

/-- A diff entry of the nbdime edit-script format (`[op, key, args]` tuples):
`seqdelete`/`seqinsert`/`patchIdx` are the index-keyed sequence entries
emitted by the cell diff builder, `add`/`remove`/`replace`/`patchKey` the
string-keyed mapping entries of the generic differ. -/
inductive Entry where
  | seqdelete : Nat → Nat → Entry
  | seqinsert : Nat → List Value → Entry
  | patchIdx : Nat → List Entry → Entry
  | add : String → Value → Entry
  | remove : String → Entry
  | replace : String → Value → Entry
  | patchKey : String → List Entry → Entry

/-- Length of the longest common (by `pyEq`) subsequence of two lists; used
by the modelled generic sequence differ to pick the branch keeping the
alignment maximal. -/
def lcsLen : List Value → List Value → Nat
  | [], _ => 0
  | _, [] => 0
  | x :: xs, y :: ys =>
    if pyEq x y then 1 + lcsLen xs ys
    else max (lcsLen xs (y :: ys)) (lcsLen (x :: xs) ys)

/-- Modelled from the spec: the sequence case of the Generic Structural
Differ (§4.2), absent from the given sources
(`nbdime.diffing.generic.diff_lists`).  "Compute an LCS-style alignment by
value equality, then emit delete/insert ranges for unmatched runs"; elements
matched by value equality are equal, so no nested patch arises.  `i` is the
index of the head of the first list in the original source sequence. -/
def lcsDiff : List Value → List Value → Nat → List Entry
  | [], [], _ => []
  | [], y :: ys, i => [Entry.seqinsert i (y :: ys)]
  | x :: xs, [], i => [Entry.seqdelete i (x :: xs).length]
  | x :: xs, y :: ys, i =>
    if pyEq x y then lcsDiff xs ys (i + 1)
    else if lcsLen (x :: xs) ys ≤ lcsLen xs (y :: ys) then
      Entry.seqdelete i 1 :: lcsDiff xs (y :: ys) (i + 1)
    else
      Entry.seqinsert i [y] :: lcsDiff (x :: xs) ys i
termination_by xs ys _ => xs.length + ys.length
decreasing_by all_goals (simp; try omega)

/-- Mapping-diff pass over the target dict: `ADD` for each key absent from
the source. -/
def addedKeys (xs : List (String × Value)) : List (String × Value) → List Entry
  | [] => []
  | (k, w) :: rest =>
    (if keyMem k xs then [] else [Entry.add k w]) ++ addedKeys xs rest

/-- Are the two values nested structures of the same shape (both dicts or
both lists), so that a changed binding recurses as a `PATCH` instead of a
`REPLACE` (§4.2)? -/
def likeShaped : Value → Value → Bool
  | Value.obj _, Value.obj _ => true
  | Value.arr _, Value.arr _ => true
  | _, _ => false

mutual

/-- Modelled from the spec: the Generic Structural Differ (§4.2), absent
from the given sources (`nbdime.diffing.generic.diff`).  Mapping diff emits
`REMOVE`/`REPLACE`/`PATCH` per key of the source then `ADD` per key only in
the target; sequence diff is `lcsDiff`; two scalars (or two values of
mismatched shapes) yield nothing when equal and one `replace` entry
otherwise.  Returns the empty script iff the two values are deeply
(Python-)equal. -/
def diffV : Value → Value → List Entry
  | Value.obj xs, Value.obj ys => diffObjGo xs ys ++ addedKeys xs ys
  | Value.arr xs, Value.arr ys => lcsDiff xs ys 0
  | v, w => if pyEq v w then [] else [Entry.replace "" w]
termination_by v w => sizeOf v + sizeOf w

/-- Mapping-diff pass over the source dict: `REMOVE` for a key absent from
the target, nothing for an equal value, `PATCH` for a changed nested
structure of like shape, `REPLACE` otherwise. -/
def diffObjGo : List (String × Value) → List (String × Value) → List Entry
  | [], _ => []
  | (k, v) :: rest, ys =>
    (match h : lookupV k ys with
     | none => [Entry.remove k]
     | some w =>
       if pyEq v w then []
       else if likeShaped v w then [Entry.patchKey k (diffV v w)]
       else [Entry.replace k w])
    ++ diffObjGo rest ys
termination_by xs ys => sizeOf xs + sizeOf ys
decreasing_by
  all_goals simp
  all_goals try omega
  all_goals (have hlk := sizeOf_lookupV h; simp at hlk; omega)

end

/-! ## Similarity predicates (`notebooks.py`, lines 29-88) -/

/-- Python `x[k]` on a value: the binding of `k` when `x` is a dict holding
it; `none` models the KeyError / TypeError raised otherwise. -/
def getKey (x : Value) (k : String) : Option Value :=
  match x with
  | Value.obj xs => lookupV k xs
  | _ => none

/-- Python `"\n".join(xs)` on a list of values: defined when every element
is a string (`none` models the TypeError otherwise). -/
def joinLines : List Value → Option String
  | [] => some ""
  | [Value.str s] => some s
  | Value.str s :: x :: rest => (joinLines (x :: rest)).map (fun r => s ++ "\n" ++ r)
  | _ => none

/-- Lines 38-41: `if isinstance(xs, list): xs = "\n".join(xs)` — a list
source is joined into one string, any other value is kept as stored. -/
def normSource : Value → Option Value
  | Value.arr l => (joinLines l).map Value.str
  | v => some v

/-- The string carried by a string value; `none` models the fault of
handing a non-sequence to `difflib.SequenceMatcher`'s ratio methods. -/
def asStr : Value → Option String
  | Value.str s => some s
  | _ => none

/-- The three ratio methods of a `difflib.SequenceMatcher`, as functions of
the two compared strings.  `difflib` is the Python standard library, outside
this repository; the spec (§4.1) describes `ratio` as matched-character
ratio and the other two as cheap upper bounds of it, so they are kept
abstract here and theorems assume exactly the upper-bound property the spec
states.  Values are rationals (the Python floats are quotients of machine
integers). -/
structure RatioFns where
  real_quick_ratio : String → String → ℚ
  quick_ratio : String → String → ℚ
  ratio : String → String → ℚ

/-- Lines 29-68: `compare_cell_source_approximate(x, y)`.  Cell types must
be equal; sources are normalized (list joined by newline); byte-equal
normalized sources match; otherwise the pair is rejected when
`real_quick_ratio` or `quick_ratio` falls below the 0.90 threshold and
accepted iff `ratio` strictly exceeds it. -/
def compare_cell_source_approximate (R : RatioFns) (x y : Value) : Option Bool :=
  match getKey x "cell_type", getKey y "cell_type" with
  | some ctx, some cty =>
    if !pyEq ctx cty then some false
    else
      match getKey x "source", getKey y "source" with
      | some xs0, some ys0 =>
        match normSource xs0, normSource ys0 with
        | some xs, some ys =>
          if pyEq xs ys then some true
          else
            match asStr xs, asStr ys with
            | some sx, some sy =>
              if R.real_quick_ratio sx sy < 9/10 then some false
              else if R.quick_ratio sx sy < 9/10 then some false
              else some (R.ratio sx sy > 9/10)
            | _, _ => none
        | _, _ => none
      | _, _ => none
  | _, _ => none

/-- Lines 71-77: `compare_cell_source_exact(x, y)` — cell types equal and
raw `source` values equal (no joining). -/
def compare_cell_source_exact (x y : Value) : Option Bool :=
  match getKey x "cell_type", getKey y "cell_type" with
  | some ctx, some cty =>
    if !pyEq ctx cty then some false
    else
      match getKey x "source", getKey y "source" with
      | some sx, some sy => if !pyEq sx sy then some false else some true
      | _, _ => none
  | _, _ => none

/-- Lines 80-88: `compare_cell_source_and_outputs(x, y)` — as the exact
predicate, plus for code cells the `outputs` values must be equal; the
short-circuit of `x["cell_type"] == "code" and x["outputs"] != y["outputs"]`
means `outputs` is only read on code cells. -/
def compare_cell_source_and_outputs (x y : Value) : Option Bool :=
  match getKey x "cell_type", getKey y "cell_type" with
  | some ctx, some cty =>
    if !pyEq ctx cty then some false
    else
      match getKey x "source", getKey y "source" with
      | some sx, some sy =>
        if !pyEq sx sy then some false
        else if pyEq ctx (Value.str "code") then
          match getKey x "outputs", getKey y "outputs" with
          | some ox, some oy => if !pyEq ox oy then some false else some true
          | _, _ => none
        else some true
      | _, _ => none
  | _, _ => none

/-! ## Multilevel snake computation (modelled from spec §4.3) -/

/-- A similarity predicate as used by the snake computer; `none` models a
raised exception. -/
abbrev Pred : Type := Value → Value → Option Bool

/-- A snake `(i, j, n)`: `n` consecutive elements from index `i` of A match
`n` consecutive elements from index `j` of B. -/
abbrev Snake : Type := Nat × Nat × Nat

/-- Modelled from the spec: the maximum-length chain of matching index
pairs inside the rectangle `[i0, i1) × [j0, j1)` (§4.3), the core of the
absent `nbdime.diffing.snakes` module.  When the corner pair matches it is
taken (always extendable to an optimal chain); otherwise the better of the
two one-step-smaller rectangles is kept, preferring the A-side skip on ties
(a fixed, deterministic tie-break as §4.3 requires). -/
def chainPairs (a b : List Value) (p : Pred) :
    Nat → Nat → Nat → Nat → Option (List (Nat × Nat))
  | i0, j0, i1, j1 =>
    if i1 ≤ i0 ∨ j1 ≤ j0 then some []
    else
      match p (a.getD i0 Value.null) (b.getD j0 Value.null) with
      | none => none
      | some true =>
        match chainPairs a b p (i0 + 1) (j0 + 1) i1 j1 with
        | none => none
        | some rest => some ((i0, j0) :: rest)
      | some false =>
        match chainPairs a b p (i0 + 1) j0 i1 j1, chainPairs a b p i0 (j0 + 1) i1 j1 with
        | some r1, some r2 => some (if r1.length < r2.length then r2 else r1)
        | _, _ => none
termination_by i0 j0 i1 j1 => (i1 - i0) + (j1 - j0)
decreasing_by all_goals omega

/-- Merge maximal runs of diagonally consecutive matched pairs into snakes
(§4.3: "merging adjacent consecutive pairs into snakes"). -/
def mergeSnakes : List (Nat × Nat) → List Snake
  | [] => []
  | (i, j) :: rest =>
    match mergeSnakes rest with
    | [] => [(i, j, 1)]
    | (i1, j1, n) :: s =>
      if i1 = i + 1 ∧ j1 = j + 1 then (i, j, n + 1) :: s
      else (i, j, 1) :: (i1, j1, n) :: s

mutual

/-- Modelled from the spec: `compute_snakes_multilevel` (§4.3), absent from
the given sources.  `lvl` counts the predicates still usable, i.e. it is the
Python `level` argument plus one, so the Python base case `level < 0` is
`lvl = 0` and the predicate used at `lvl = l + 1` is `predicates[l]`.
An empty rectangle or exhausted levels yield no snakes; otherwise the
maximum chain under the strictest remaining predicate is merged into snakes
and the gaps between them are recursed into at the next level down. -/
def computeSnakes (a b : List Value) (preds : List Pred) :
    Nat → Nat → Nat → Nat → Nat → Option (List Snake)
  | 0, _, _, _, _ => some []
  | l + 1, i0, j0, i1, j1 =>
    if i1 ≤ i0 ∨ j1 ≤ j0 then some []
    else
      match chainPairs a b (preds.getD l (fun _ _ => some false)) i0 j0 i1 j1 with
      | none => none
      | some chain => spliceGaps a b preds l i0 j0 (mergeSnakes chain) i1 j1
termination_by lvl _ _ _ _ => (lvl, 0)

/-- Recurse into the uncovered sub-rectangles strictly between consecutive
snakes (and before the first / after the last) at level `l`, splicing the
recursively found snakes into the result in index order (§4.3). -/
def spliceGaps (a b : List Value) (preds : List Pred) (l : Nat) :
    Nat → Nat → List Snake → Nat → Nat → Option (List Snake)
  | i0, j0, [], i1, j1 => computeSnakes a b preds l i0 j0 i1 j1
  | i0, j0, (i, j, n) :: rest, i1, j1 =>
    match computeSnakes a b preds l i0 j0 i j with
    | none => none
    | some pre =>
      match spliceGaps a b preds l (i + n) (j + n) rest i1 j1 with
      | none => none
      | some post => some (pre ++ (i, j, n) :: post)
termination_by _ _ snakes _ _ => (l, snakes.length + 1)

end

/-! ## Cell diff builder (`notebooks.py`, lines 91-126) -/

/-- Line 91-96: `diff_single_cells(a, b)` just invokes the generic diff on
the two cell records. -/
def diff_single_cells (a b : Value) : List Entry :=
  diffV a b

/-- Lines 120-123: `for k in range(n): cd = diff_single_cells(a[i+k],
b[j+k]); if cd: di.append([PATCH, i+k, cd])`.  The first argument pair is
the current position `(i+k, j+k)`, the last the number of steps left;
`none` models the IndexError of an out-of-range subscript. -/
def patchRun (a b : List Value) : Nat → Nat → Nat → Option (List Entry)
  | _, _, 0 => some []
  | i, j, n + 1 =>
    match a.get? i, b.get? j with
    | some x, some y =>
      match patchRun a b (i + 1) (j + 1) n with
      | none => none
      | some rest =>
        let cd := diff_single_cells x y
        some ((if cd.isEmpty then [] else [Entry.patchIdx i cd]) ++ rest)
    | _, _ => none

/-- Python slice `b[j0:j]` (clamping, never failing). -/
def sliceL (b : List Value) (j0 j : Nat) : List Value :=
  (b.drop j0).take (j - j0)

/-- Lines 113-126, the loop body of `diff_cells` run over the remaining
snakes: before each snake emit a `SEQDELETE` at `i0` of the A-gap length
when `i > i0` and a `SEQINSERT` at `i0` of the slice `b[j0:j]` when
`j > j0`, then the patches of the matched pairs, then continue from the
snake's far corner `(i+n, j+n)`. -/
def dfsGo (a b : List Value) : List Snake → Nat → Nat → Option (List Entry)
  | [], _, _ => some []
  | (i, j, n) :: rest, i0, j0 =>
    match patchRun a b i j n, dfsGo a b rest (i + n) (j + n) with
    | some ps, some restE =>
      some ((if i0 < i then [Entry.seqdelete i0 (i - i0)] else [])
        ++ (if j0 < j then [Entry.seqinsert i0 (sliceL b j0 j)] else [])
        ++ ps ++ restE)
    | _, _ => none

/-- Lines 113-126 of `diff_cells`: walk `snakes + [(len(a), len(b), 0)]`
from `(0, 0)` accumulating the edit script. -/
def diff_from_snakes (a b : List Value) (snakes : List Snake) : Option (List Entry) :=
  dfsGo a b (snakes ++ [(a.length, b.length, 0)]) 0 0

/-- Lines 99-126: `diff_cells(a, b)` — the predicates in low-to-high
precedence order, the snake computation over the full rectangle at the top
level (`level = len(predicates) - 1`, i.e. `lvl = len(predicates)` in the
shifted counting of `computeSnakes`), then the edit script from the
snakes. -/
def diff_cells (R : RatioFns) (a b : List Value) : Option (List Entry) :=
  let predicates : List Pred :=
    [compare_cell_source_approximate R,
     compare_cell_source_exact,
     compare_cell_source_and_outputs]
  match computeSnakes a b predicates predicates.length 0 0 a.length b.length with
  | none => none
  | some snakes => diff_from_snakes a b snakes

/-! ## Notebook differ (`notebooks.py`, lines 135-155) -/

/-- A Python dict, as handed to `diff_notebooks`. -/
abbrev PyDict : Type := List (String × Value)

/-- Python `d.pop(k)`: the value bound to `k` together with the dict with
that binding removed; `none` models the KeyError when `k` is absent. -/
def popKey (k : String) : PyDict → Option (Value × PyDict)
  | [] => none
  | (k1, v) :: rest =>
    if k1 = k then some (v, rest)
    else (popKey k rest).map (fun p => (p.1, (k1, v) :: p.2))

/-- The element list of a list value; `none` models the fault of using a
non-list where `diff_cells` needs `len` and slicing. -/
def asArr : Value → Option (List Value)
  | Value.arr l => some l
  | _ => none

/-- Lines 135-155: `diff_notebooks(nba, nbb)` — shallow-copy both dicts and
pop `"cells"` from the copies (the copies, not the inputs, are mutated;
state captured in `diff_notebooks_heap` below), diff the remainders with
the generic differ, diff the cell lists with `diff_cells`, and append a
single `PATCH` keyed `"cells"` when the cell diff is non-empty. -/
def diff_notebooks (R : RatioFns) (nba nbb : PyDict) : Option (List Entry) :=
  match popKey "cells" nba, popKey "cells" nbb with
  | some pa, some pb =>
    let nbdiff := diffV (Value.obj pa.2) (Value.obj pb.2)
    match asArr pa.1, asArr pb.1 with
    | some acells, some bcells =>
      match diff_cells R acells bcells with
      | none => none
      | some cdiff =>
        some (if cdiff.isEmpty then nbdiff else nbdiff ++ [Entry.patchKey "cells" cdiff])
    | _, _ => none
  | _, _ => none

/-! ## The spec-side walk of §4.4 (for the refinement claim about the
cell diff builder) -/

/-- The §4.4 description of the patches of one snake: for each matched pair
within the snake in turn, the generic diff of the two cells, kept iff
non-empty, keyed at the A-side index.  The last argument counts the matched
pairs still to visit from position `(i, j)`. -/
def snakePatches (a b : List Value) : Nat → Nat → Nat → List Entry
  | _, _, 0 => []
  | i, j, n + 1 =>
    (if (diffV (a.getD i Value.null) (b.getD j Value.null)).isEmpty then []
     else [Entry.patchIdx i (diffV (a.getD i Value.null) (b.getD j Value.null))])
    ++ snakePatches a b (i + 1) (j + 1) n

/-- The §4.4 walk over a snake list: from the last covered position
`(i0, j0)`, for each snake first the `SEQDELETE` for a non-empty A-gap,
then the `SEQINSERT` for a non-empty B-gap, then the patches of the matched
pairs. -/
def walkSnakes (a b : List Value) : List Snake → Nat → Nat → List Entry
  | [], _, _ => []
  | (i, j, n) :: rest, i0, j0 =>
    (if i0 < i then [Entry.seqdelete i0 (i - i0)] else [])
    ++ (if j0 < j then [Entry.seqinsert i0 (sliceL b j0 j)] else [])
    ++ snakePatches a b i j n
    ++ walkSnakes a b rest (i + n) (j + n)

/-- The §4.4 contract: walk the snakes from `(0, 0)` with an implicit
terminal snake of length 0 at `(len(A), len(B))`. -/
def cellDiffSpec (a b : List Value) (snakes : List Snake) : List Entry :=
  walkSnakes a b (snakes ++ [(a.length, b.length, 0)]) 0 0

/-- A snake list that is monotonic, non-overlapping and contained in the
rectangle `[i0, i1) × [j0, j1)` (§3): each snake starts at or after the
current position in both sequences and ends inside the rectangle, and the
position advances past it for the rest. -/
def snakesOk (i1 j1 : Nat) : Nat → Nat → List Snake → Bool
  | _, _, [] => true
  | i0, j0, (i, j, n) :: rest =>
    i0 ≤ i && j0 ≤ j && i + n ≤ i1 && j + n ≤ j1 && snakesOk i1 j1 (i + n) (j + n) rest

/-! ## The web layer's filename truncation (`nbdimeserver.py`, lines 42-47) -/

/-- Lines 42-47: `truncate_filename(name)` — names of fewer than 20
characters pass through, anything else is cut to its first 17 characters
plus `"..."`.  Python strings are modelled as lists of characters. -/
def truncate_filename (name : List Char) : List Char :=
  if name.length < 20 then name
  else name.take (20 - 3) ++ ['.', '.', '.']

/-! ## Heap-passing embedding of `diff_notebooks` (for the no-mutation
claim) -/

/-- The two statements `nba = nba.copy()` / `acells = nba.pop("cells")` of
`diff_notebooks` are the only statements that touch a dict in place, and
they mutate the freshly allocated copy.  To state that, the call is
replayed against an explicit heap: a list of dicts, a dict reference being
an index into it.  `copy` appends a fresh cell holding the same dict;
`pop` rewrites the copy's cell in place.  The result carries the final heap
alongside the value (also when the call faults, since a Python exception
leaves performed mutations in place). -/
def diff_notebooks_heap (R : RatioFns) (heap : List PyDict) (ra rb : Nat) :
    Option (List Entry) × List PyDict :=
  let ia := heap.length
  let h1 := heap ++ [heap.getD ra []]
  let ib := h1.length
  let h2 := h1 ++ [h1.getD rb []]
  match popKey "cells" (h2.getD ia []) with
  | none => (none, h2)
  | some pa =>
    let h3 := h2.set ia pa.2
    match popKey "cells" (h3.getD ib []) with
    | none => (none, h3)
    | some pb =>
      let h4 := h3.set ib pb.2
      let nbdiff := diffV (Value.obj (h4.getD ia [])) (Value.obj (h4.getD ib []))
      let res : Option (List Entry) :=
        match asArr pa.1, asArr pb.1 with
        | some acells, some bcells =>
          match diff_cells R acells bcells with
          | none => none
          | some cdiff =>
            some (if cdiff.isEmpty then nbdiff else nbdiff ++ [Entry.patchKey "cells" cdiff])
        | _, _ => none
      (res, h4)

/-! ## Cell well-formedness -/

/-- Every element of the list is a string value (the line-list form of a
cell source). -/
def strList : List Value → Bool
  | [] => true
  | Value.str _ :: rest => strList rest
  | _ => false

/-- A `source` value of one of the two shapes the data model allows: a
single string or a list of line strings. -/
def sourceShapeOk : Value → Bool
  | Value.str _ => true
  | Value.arr l => strList l
  | _ => false

/-- A cell record holding every field the similarity predicates consult: a
dict with a `cell_type`, a `source` of a supported shape, and `outputs`
when the cell is a code cell. -/
def cellFieldsOk (c : Value) : Bool :=
  match getKey c "cell_type", getKey c "source" with
  | some ct, some src =>
    sourceShapeOk src &&
      (if pyEq ct (Value.str "code") then (getKey c "outputs").isSome else true)
  | _, _ => false

/-- A fixed trivial instance of the difflib ratio functions, for concrete
instantiations. -/
def constRatio : RatioFns :=
  RatioFns.mk (fun _ _ => 1) (fun _ _ => 1) (fun _ _ => 1)

/-! ## C10: filename truncation -/

/-- C10: for every string `name`, `truncate_filename name` has length at
most 20; names shorter than 20 characters are returned unchanged, and all
other names (including 20-character ones) are returned as their first 17
characters followed by `"..."`. -/
theorem truncate_filename_spec (name : List Char) :
    (truncate_filename name).length ≤ 20 ∧
    (name.length < 20 → truncate_filename name = name) ∧
    (20 ≤ name.length → truncate_filename name = name.take 17 ++ ['.', '.', '.']) := by
  unfold truncate_filename
  by_cases h : name.length < 20
  · refine ⟨?_, fun _ => ?_, fun h2 => absurd h2 (by omega)⟩
    · simp [h]
      omega
    · simp [h]
  · refine ⟨?_, fun h1 => absurd h1 h, fun _ => ?_⟩
    · simp [h, List.length_take]
    · simp [h]

/-- Witness for C10 at a 25-character name. -/
theorem truncate_filename_spec_witness :
    (truncate_filename "averyveryverylongfilename".data).length ≤ 20 ∧
    truncate_filename "averyveryverylongfilename".data =
      "averyveryverylongfilename".data.take 17 ++ ['.', '.', '.'] :=
  ⟨(truncate_filename_spec _).1, (truncate_filename_spec _).2.2 (by decide)⟩

/-! ## C6: the exact-source predicate -/

/-- C6: `compare_cell_source_exact x y` returns true exactly when both
cells carry a `cell_type` and a `source` and both pairs are equal, the
`source` values compared as stored (no joining); in particular a cell whose
source is stored as a list never matches one whose source is a single
string. -/
theorem compare_cell_source_exact_spec (x y : Value) :
    (compare_cell_source_exact x y = some true ↔
      ∃ ctx cty sx sy,
        getKey x "cell_type" = some ctx ∧ getKey y "cell_type" = some cty ∧
        getKey x "source" = some sx ∧ getKey y "source" = some sy ∧
        pyEq ctx cty = true ∧ pyEq sx sy = true) ∧
    ∀ l s, getKey x "source" = some (Value.arr l) → getKey y "source" = some (Value.str s) →
      compare_cell_source_exact x y ≠ some true := by
  have hiff : compare_cell_source_exact x y = some true ↔
      ∃ ctx cty sx sy,
        getKey x "cell_type" = some ctx ∧ getKey y "cell_type" = some cty ∧
        getKey x "source" = some sx ∧ getKey y "source" = some sy ∧
        pyEq ctx cty = true ∧ pyEq sx sy = true := by
    constructor
    · intro h
      unfold compare_cell_source_exact at h
      cases hx : getKey x "cell_type" with
      | none => rw [hx] at h; simp at h
      | some ctx =>
      rw [hx] at h
      cases hy : getKey y "cell_type" with
      | none => rw [hy] at h; simp at h
      | some cty =>
      rw [hy] at h
      cases hct : pyEq ctx cty with
      | false => simp [hct] at h
      | true =>
      simp only [hct, Bool.not_true, Option.bind_some] at h
      cases hsx : getKey x "source" with
      | none => rw [hsx] at h; simp at h
      | some sx =>
      rw [hsx] at h
      cases hsy : getKey y "source" with
      | none => rw [hsy] at h; simp at h
      | some sy =>
      rw [hsy] at h
      cases hs : pyEq sx sy with
      | false => simp [hs] at h
      | true => exact ⟨ctx, cty, sx, sy, rfl, rfl, rfl, rfl, hct, hs⟩
    · rintro ⟨ctx, cty, sx, sy, hx, hy, hsx, hsy, hct, hs⟩
      unfold compare_cell_source_exact
      rw [hx, hy]
      simp [hct, hsx, hsy, hs]
  refine ⟨hiff, fun l s hl hs hcontra => ?_⟩
  obtain ⟨ctx, cty, sx, sy, _, _, hsx, hsy, _, hpe⟩ := hiff.mp hcontra
  rw [hl] at hsx
  rw [hs] at hsy
  cases hsx
  cases hsy
  simp [pyEq] at hpe

/-- Witness for C6: a cell storing its source as the one-line list
`["x=1"]` does not exact-match a cell storing the string `"x=1"`. -/
theorem compare_cell_source_exact_spec_witness :
    compare_cell_source_exact
      (Value.obj [("cell_type", Value.str "code"), ("source", Value.arr [Value.str "x=1"])])
      (Value.obj [("cell_type", Value.str "code"), ("source", Value.str "x=1")]) ≠ some true :=
  (compare_cell_source_exact_spec _ _).2 [Value.str "x=1"] "x=1"
    (by simp [getKey, lookupV]) (by simp [getKey, lookupV])

/-! ## C9: the strictest predicate on non-code cells -/

/-- C9: on two cells whose `cell_type` values are equal but not `"code"`,
`compare_cell_source_and_outputs` returns exactly what
`compare_cell_source_exact` returns — the `outputs` field is never read. -/
theorem and_outputs_matches_exact_on_noncode (x y ctx cty : Value)
    (hx : getKey x "cell_type" = some ctx) (hy : getKey y "cell_type" = some cty)
    (hct : pyEq ctx cty = true) (hnc : pyEq ctx (Value.str "code") = false) :
    compare_cell_source_and_outputs x y = compare_cell_source_exact x y := by
  unfold compare_cell_source_and_outputs compare_cell_source_exact
  rw [hx, hy]
  simp [hct, hnc]

/-- Witness for C9: two markdown cells with equal sources, one with a
stray `outputs` field the other lacks, still compare equal under both
predicates. -/
theorem and_outputs_matches_exact_on_noncode_witness :
    compare_cell_source_and_outputs
      (Value.obj [("cell_type", Value.str "markdown"), ("source", Value.str "hi"),
                  ("outputs", Value.arr [Value.int 1])])
      (Value.obj [("cell_type", Value.str "markdown"), ("source", Value.str "hi")]) =
    compare_cell_source_exact
      (Value.obj [("cell_type", Value.str "markdown"), ("source", Value.str "hi"),
                  ("outputs", Value.arr [Value.int 1])])
      (Value.obj [("cell_type", Value.str "markdown"), ("source", Value.str "hi")]) :=
  and_outputs_matches_exact_on_noncode _ _ (Value.str "markdown") (Value.str "markdown")
    (by simp [getKey, lookupV]) (by simp [getKey, lookupV])
    (by simp [pyEq]) (by simp [pyEq])

/-! ## Helper lemmas about `pyEq` and source normalization -/

theorem pyEq_str_right {v : Value} {s : String} (h : pyEq v (Value.str s) = true) :
    v = Value.str s := by
  cases v <;> simp [pyEq] at h <;> simp [h]

theorem pyEq_str_left {v : Value} {s : String} (h : pyEq (Value.str s) v = true) :
    v = Value.str s := by
  cases v <;> simp [pyEq] at h <;> simp [h]

theorem joinLines_isSome {l : List Value} (h : strList l = true) :
    ∃ s, joinLines l = some s := by
  induction l with
  | nil => exact ⟨"", rfl⟩
  | cons x rest ih =>
    cases x <;> simp [strList] at h
    rename_i a
    obtain ⟨r, hr⟩ := ih h
    cases rest with
    | nil => exact ⟨a, rfl⟩
    | cons y t => exact ⟨a ++ "\n" ++ r, by simp [joinLines, hr]⟩

theorem normSource_str {v : Value} (h : sourceShapeOk v = true) :
    ∃ s, normSource v = some (Value.str s) := by
  cases v <;> simp [sourceShapeOk] at h
  case str s => exact ⟨s, rfl⟩
  case arr l =>
    obtain ⟨s, hs⟩ := joinLines_isSome h
    exact ⟨s, by simp [normSource, hs]⟩

theorem strList_pyEqList_eq {la : List Value} :
    ∀ {lb : List Value}, strList la = true → pyEqList la lb = true → la = lb := by
  induction la with
  | nil => intro lb _ h; cases lb <;> simp [pyEqList] at h ⊢
  | cons x rest ih =>
    intro lb hs h
    cases x <;> simp [strList] at hs
    cases lb with
    | nil => simp [pyEqList] at h
    | cons y t =>
      rw [pyEqList] at h
      simp at h
      have := pyEq_str_left h.1
      subst this
      rw [ih hs h.2]

/-- Unpack the record well-formedness check into its components. -/
theorem cellFieldsOk_unpack {c : Value} (h : cellFieldsOk c = true) :
    ∃ ct src, getKey c "cell_type" = some ct ∧ getKey c "source" = some src ∧
      sourceShapeOk src = true ∧
      (pyEq ct (Value.str "code") = true → ∃ o, getKey c "outputs" = some o) := by
  unfold cellFieldsOk at h
  cases hct : getKey c "cell_type" with
  | none => rw [hct] at h; simp at h
  | some ct =>
  cases hsrc : getKey c "source" with
  | none => rw [hct, hsrc] at h; simp at h
  | some src =>
  rw [hct, hsrc] at h
  simp at h
  refine ⟨ct, src, rfl, rfl, h.1, fun hcode => ?_⟩
  have := h.2
  rw [hcode] at this
  simp at this
  obtain ⟨o, ho⟩ := Option.isSome_iff_exists.mp this
  exact ⟨o, ho⟩

/-! ## C4 (corrected): predicate behaviour on records missing a field -/

/-- C4 counterexample: on a mapping that has `cell_type` but lacks
`source`, `compare_cell_source_approximate` propagates a fault (KeyError,
modelled `none`) instead of returning false, and likewise
`compare_cell_source_and_outputs` on a code cell lacking `outputs`. -/
theorem predicate_missing_field_cex :
    (getKey (Value.obj [("cell_type", Value.str "code")]) "cell_type").isSome = true ∧
    compare_cell_source_approximate constRatio
      (Value.obj [("cell_type", Value.str "code")])
      (Value.obj [("cell_type", Value.str "code")]) = none ∧
    compare_cell_source_and_outputs
      (Value.obj [("cell_type", Value.str "code"), ("source", Value.str "x")])
      (Value.obj [("cell_type", Value.str "code"), ("source", Value.str "x")]) = none := by
  refine ⟨by simp [getKey, lookupV], ?_, ?_⟩
  · simp [compare_cell_source_approximate, getKey, lookupV, pyEq]
  · simp [compare_cell_source_and_outputs, getKey, lookupV, pyEq]

/-- C4 amended: each similarity predicate is total (returns a boolean,
never a fault) on every pair of cell records that carry the fields the
predicate consults — `cell_type`, a `source` of string or line-list shape,
and `outputs` for code cells; a record missing a consulted field makes the
predicate raise a KeyError rather than return false. -/
theorem predicates_total_on_fielded_cells (R : RatioFns) (x y : Value)
    (hx : cellFieldsOk x = true) (hy : cellFieldsOk y = true) :
    (compare_cell_source_approximate R x y).isSome = true ∧
    (compare_cell_source_exact x y).isSome = true ∧
    (compare_cell_source_and_outputs x y).isSome = true := by
  obtain ⟨ctx, srcx, hctx, hsrcx, hshx, houtx⟩ := cellFieldsOk_unpack hx
  obtain ⟨cty, srcy, hcty, hsrcy, hshy, houty⟩ := cellFieldsOk_unpack hy
  obtain ⟨sx, hnx⟩ := normSource_str hshx
  obtain ⟨sy, hny⟩ := normSource_str hshy
  refine ⟨?_, ?_, ?_⟩
  · unfold compare_cell_source_approximate
    rw [hctx, hcty]
    cases hct : pyEq ctx cty with
    | false => simp [hct]
    | true =>
      simp only [hct, Bool.not_true, Bool.false_eq_true, if_false, Option.some_bind]
      rw [hsrcx, hsrcy]
      simp only [hnx, hny]
      cases hpe : pyEq (Value.str sx) (Value.str sy) with
      | true => simp
      | false =>
        simp [asStr]
        split
        · simp
        · split <;> simp
  · unfold compare_cell_source_exact
    rw [hctx, hcty, hsrcx, hsrcy]
    cases hct : pyEq ctx cty <;> simp [hct] <;>
      cases hpe : pyEq srcx srcy <;> simp [hpe]
  · unfold compare_cell_source_and_outputs
    rw [hctx, hcty, hsrcx, hsrcy]
    cases hct : pyEq ctx cty with
    | false => simp [hct]
    | true =>
      simp only [hct, Bool.not_true, Bool.false_eq_true, if_false, Option.some_bind]
      cases hpe : pyEq srcx srcy with
      | false => simp [hpe]
      | true =>
        simp only [hpe, Bool.not_true, Bool.false_eq_true, if_false]
        cases hcode : pyEq ctx (Value.str "code") with
        | false => simp [hcode]
        | true =>
          obtain ⟨ox, hox⟩ := houtx hcode
          have hctxs : ctx = Value.str "code" := pyEq_str_right hcode
          have hctys : cty = Value.str "code" := by
            apply pyEq_str_left
            rw [← hctxs]
            exact hct
          obtain ⟨oy, hoy⟩ := houty (by rw [hctys]; simp [pyEq])
          rw [hox, hoy]
          cases hoe : pyEq ox oy <;> simp [hoe]

/-- Two equal (by Python `==`) sources of supported shape normalize to the
same joined text. -/
theorem normSource_pyEq_eq {u v : Value} {su sv : String}
    (hpe : pyEq u v = true) (hu : sourceShapeOk u = true)
    (hnu : normSource u = some (Value.str su)) (hnv : normSource v = some (Value.str sv)) :
    su = sv := by
  cases u with
  | str a =>
    have hv := pyEq_str_left hpe
    subst hv
    simp [normSource] at hnu hnv
    rw [← hnu, ← hnv]
  | arr la =>
    cases v <;> simp [pyEq] at hpe
    rename_i lb
    have heq : la = lb := strList_pyEqList_eq (by simpa [sourceShapeOk] using hu) hpe
    subst heq
    rw [hnu] at hnv
    simpa using hnv
  | int n => simp [sourceShapeOk] at hu
  | bool b => simp [sourceShapeOk] at hu
  | null => simp [sourceShapeOk] at hu
  | obj o => simp [sourceShapeOk] at hu

/-- Witness for the C4 amended theorem at two concrete code cells. -/
theorem predicates_total_on_fielded_cells_witness :
    (compare_cell_source_approximate constRatio
      (Value.obj [("cell_type", Value.str "code"), ("source", Value.str "a"),
                  ("outputs", Value.arr [])])
      (Value.obj [("cell_type", Value.str "code"), ("source", Value.arr [Value.str "b"]),
                  ("outputs", Value.arr [Value.int 3])])).isSome = true :=
  (predicates_total_on_fielded_cells constRatio _ _
    (by simp [cellFieldsOk, getKey, lookupV, sourceShapeOk, pyEq])
    (by simp [cellFieldsOk, getKey, lookupV, sourceShapeOk, strList, pyEq])).1

/-- Reduction of the exact predicate once both cells' fields are known. -/
theorem exact_reduce {x y ctx cty sx sy : Value}
    (hx : getKey x "cell_type" = some ctx) (hy : getKey y "cell_type" = some cty)
    (hsx : getKey x "source" = some sx) (hsy : getKey y "source" = some sy) :
    compare_cell_source_exact x y =
      (if !pyEq ctx cty then some false
       else if !pyEq sx sy then some false else some true) := by
  unfold compare_cell_source_exact
  rw [hx, hy, hsx, hsy]

/-- Reduction of the source-and-outputs predicate once both cells' types
and sources are known. -/
theorem and_outputs_reduce {x y ctx cty sx sy : Value}
    (hx : getKey x "cell_type" = some ctx) (hy : getKey y "cell_type" = some cty)
    (hsx : getKey x "source" = some sx) (hsy : getKey y "source" = some sy) :
    compare_cell_source_and_outputs x y =
      (if !pyEq ctx cty then some false
       else if !pyEq sx sy then some false
       else if pyEq ctx (Value.str "code") then
         match getKey x "outputs", getKey y "outputs" with
         | some ox, some oy => if !pyEq ox oy then some false else some true
         | _, _ => none
       else some true) := by
  unfold compare_cell_source_and_outputs
  rw [hx, hy, hsx, hsy]

/-- Reduction of the approximate predicate once both cells' fields are
known and both sources normalize to strings. -/
theorem approx_reduce {R : RatioFns} {x y ctx cty s1 s2 : Value} {sx sy : String}
    (hx : getKey x "cell_type" = some ctx) (hy : getKey y "cell_type" = some cty)
    (hs1 : getKey x "source" = some s1) (hs2 : getKey y "source" = some s2)
    (hn1 : normSource s1 = some (Value.str sx)) (hn2 : normSource s2 = some (Value.str sy)) :
    compare_cell_source_approximate R x y =
      (if !pyEq ctx cty then some false
       else if pyEq (Value.str sx) (Value.str sy) then some true
       else if R.real_quick_ratio sx sy < 9/10 then some false
       else if R.quick_ratio sx sy < 9/10 then some false
       else some (decide (R.ratio sx sy > 9/10))) := by
  unfold compare_cell_source_approximate
  rw [hx, hy, hs1, hs2]
  simp only [hn1, hn2, asStr]

/-! ## C3: strictness ordering of the predicates -/

/-- C3: on well-formed cells the predicates are ordered by strictness —
a match under `compare_cell_source_and_outputs` is a match under
`compare_cell_source_exact`, and a match under that is a match under
`compare_cell_source_approximate` (for any ratio functions). -/
theorem predicate_monotonicity (R : RatioFns) (x y : Value)
    (hx : cellFieldsOk x = true) (hy : cellFieldsOk y = true) :
    (compare_cell_source_and_outputs x y = some true →
      compare_cell_source_exact x y = some true) ∧
    (compare_cell_source_exact x y = some true →
      compare_cell_source_approximate R x y = some true) := by
  obtain ⟨ctx, srcx, hctx, hsrcx, hshx, houtx⟩ := cellFieldsOk_unpack hx
  obtain ⟨cty, srcy, hcty, hsrcy, hshy, houty⟩ := cellFieldsOk_unpack hy
  constructor
  · intro h
    rw [and_outputs_reduce hctx hcty hsrcx hsrcy] at h
    rw [exact_reduce hctx hcty hsrcx hsrcy]
    cases hct : pyEq ctx cty with
    | false => rw [hct] at h; simp at h
    | true =>
      rw [hct] at h
      cases hpe : pyEq srcx srcy with
      | false => rw [hpe] at h; simp at h
      | true => simp [hpe]
  · intro h
    rw [exact_reduce hctx hcty hsrcx hsrcy] at h
    cases hct : pyEq ctx cty with
    | false => rw [hct] at h; simp at h
    | true =>
      rw [hct] at h
      cases hpe : pyEq srcx srcy with
      | false => rw [hpe] at h; simp at h
      | true =>
        obtain ⟨sx, hnx⟩ := normSource_str hshx
        obtain ⟨sy, hny⟩ := normSource_str hshy
        have hsxy : sx = sy := normSource_pyEq_eq hpe hshx hnx hny
        subst hsxy
        rw [approx_reduce hctx hcty hsrcx hsrcy hnx hny]
        simp [hct, pyEq]

/-- Witness for C3 at a concrete markdown cell compared with itself. -/
theorem predicate_monotonicity_witness :
    compare_cell_source_approximate constRatio
      (Value.obj [("cell_type", Value.str "markdown"), ("source", Value.str "hello")])
      (Value.obj [("cell_type", Value.str "markdown"), ("source", Value.str "hello")]) =
      some true :=
  (predicate_monotonicity constRatio _ _
    (by simp [cellFieldsOk, getKey, lookupV, sourceShapeOk, pyEq])
    (by simp [cellFieldsOk, getKey, lookupV, sourceShapeOk, pyEq])).2
    (by simp [compare_cell_source_exact, getKey, lookupV, pyEq])

/-! ## C5: the 0.90 threshold logic of the approximate predicate -/

/-- C5: on two cells of equal type whose sources normalize to strings, the
approximate predicate accepts byte-equal normalized sources for every
choice of ratio functions (so no ratio is consulted); on unequal normalized
sources a `real_quick_ratio` or `quick_ratio` below 0.90 forces rejection,
and whenever the two quick estimates are upper bounds of `ratio` (as they
are in difflib) the predicate returns true exactly when the full `ratio`
strictly exceeds 0.90. -/
theorem approx_threshold_spec (R : RatioFns) (x y ctx cty s1 s2 : Value) (sx sy : String)
    (hx : getKey x "cell_type" = some ctx) (hy : getKey y "cell_type" = some cty)
    (hct : pyEq ctx cty = true)
    (hs1 : getKey x "source" = some s1) (hs2 : getKey y "source" = some s2)
    (hn1 : normSource s1 = some (Value.str sx)) (hn2 : normSource s2 = some (Value.str sy)) :
    (sx = sy → compare_cell_source_approximate R x y = some true) ∧
    (sx ≠ sy →
      (R.real_quick_ratio sx sy < 9/10 →
        compare_cell_source_approximate R x y = some false) ∧
      (R.quick_ratio sx sy < 9/10 →
        compare_cell_source_approximate R x y = some false) ∧
      (R.ratio sx sy ≤ R.real_quick_ratio sx sy → R.ratio sx sy ≤ R.quick_ratio sx sy →
        (compare_cell_source_approximate R x y = some true ↔ 9/10 < R.ratio sx sy))) := by
  rw [approx_reduce hx hy hs1 hs2 hn1 hn2]
  simp only [hct, Bool.not_true, Bool.false_eq_true, if_false]
  constructor
  · intro he
    subst he
    simp [pyEq]
  · intro hne
    have hpe : pyEq (Value.str sx) (Value.str sy) = false := by
      simp [pyEq, hne]
    simp only [hpe, Bool.false_eq_true, if_false, asStr]
    refine ⟨fun h1 => by simp [h1], fun h2 => ?_, fun hub1 hub2 => ?_⟩
    · by_cases h1 : R.real_quick_ratio sx sy < 9/10
      · simp [h1]
      · simp [h1, h2]
    · by_cases h1 : R.real_quick_ratio sx sy < 9/10
      · have hnr : ¬ (9/10 < R.ratio sx sy) := by
          intro hc
          exact absurd (lt_of_le_of_lt hub1 h1) (by linarith)
        simp [h1, hnr]
      · by_cases h2 : R.quick_ratio sx sy < 9/10
        · have hnr : ¬ (9/10 < R.ratio sx sy) := by
            intro hc
            exact absurd (lt_of_le_of_lt hub2 h2) (by linarith)
          simp [h1, h2, hnr]
        · simp [h1, h2]

/-- Witness for C5 at two concrete code cells with sources `"ab"` and
`"ax"` and the constant ratio functions. -/
theorem approx_threshold_spec_witness :
    compare_cell_source_approximate constRatio
      (Value.obj [("cell_type", Value.str "code"), ("source", Value.str "ab")])
      (Value.obj [("cell_type", Value.str "code"), ("source", Value.str "ax")]) =
      some true ↔ (9 : ℚ)/10 < 1 :=
  have h := approx_threshold_spec constRatio _ _
    (Value.str "code") (Value.str "code") (Value.str "ab") (Value.str "ax") "ab" "ax"
    (by simp [getKey, lookupV]) (by simp [getKey, lookupV]) (by simp [pyEq])
    (by simp [getKey, lookupV]) (by simp [getKey, lookupV]) rfl rfl
  ((h.2 (by decide)).2.2 (le_refl 1) (le_refl 1))

/-! ## C7: the inputs of `diff_notebooks` are never mutated -/

theorem take_set_of_le {α : Type} (l : List α) (n : Nat) (a : α) (m : Nat) (hm : m ≤ n) :
    (l.set n a).take m = l.take m := by
  induction l generalizing n m with
  | nil => simp
  | cons x t ih =>
    cases n with
    | zero =>
      have : m = 0 := Nat.le_zero.mp hm
      subst this
      simp
    | succ k =>
      cases m with
      | zero => simp
      | succ m1 =>
        simp only [List.set, List.take]
        rw [ih k m1 (Nat.le_of_succ_le_succ hm)]

/-- C7: `diff_notebooks` leaves its two input dicts untouched — replayed
against an explicit heap, every cell of the original heap (in particular the
two cells holding the input documents, with their `cells` keys) is unchanged
after the call; only the freshly allocated copies are written. -/
theorem diff_notebooks_no_mutation (R : RatioFns) (heap : List PyDict) (ra rb : Nat) :
    (diff_notebooks_heap R heap ra rb).2.take heap.length = heap ∧
    (∀ i, i < heap.length →
      (diff_notebooks_heap R heap ra rb).2.get? i = heap.get? i) := by
  have hpre : ∀ h2 : List PyDict, h2.take heap.length = heap →
      (∀ i, i < heap.length → h2.get? i = heap.get? i) := by
    intro h2 hh i hi
    have := congrArg (fun l => List.get? l i) hh
    simpa [List.get?_eq_getElem?, List.getElem?_take_of_lt hi] using this
  have key : (diff_notebooks_heap R heap ra rb).2.take heap.length = heap := by
    unfold diff_notebooks_heap
    have hlen1 : heap.length ≤ (heap ++ [heap.getD ra []]).length := by simp
    cases hpa : popKey "cells" (((heap ++ [heap.getD ra []]) ++
        [(heap ++ [heap.getD ra []]).getD rb []]).getD heap.length []) with
    | none =>
      simp only [hpa]
      rw [List.append_assoc, List.take_left]
    | some pa =>
      simp only [hpa]
      cases hpb : popKey "cells"
          (((((heap ++ [heap.getD ra []]) ++ [(heap ++ [heap.getD ra []]).getD rb []])).set
            heap.length pa.2).getD ((heap ++ [heap.getD ra []]).length) []) with
      | none =>
        simp only [hpb]
        rw [take_set_of_le _ _ _ _ (le_refl heap.length)]
        rw [List.append_assoc, List.take_left]
      | some pb =>
        simp only [hpb]
        rw [take_set_of_le _ _ _ _ (by simp)]
        rw [take_set_of_le _ _ _ _ (le_refl heap.length)]
        rw [List.append_assoc, List.take_left]
  exact ⟨key, hpre _ key⟩

/-- Witness for C7: a one-document heap is untouched by a diff of the
document with itself. -/
theorem diff_notebooks_no_mutation_witness :
    (diff_notebooks_heap constRatio [[("cells", Value.arr [])]] 0 0).2.get? 0 =
      some [("cells", Value.arr [])] :=
  ((diff_notebooks_no_mutation constRatio [[("cells", Value.arr [])]] 0 0).2 0
    (by decide)).trans rfl

/-! ## C2 and C8: the cell diff builder against the §4.4 walk -/

/-- Appending the implicit terminal snake `(la, lb, 0)` preserves snake-list
validity. -/
theorem snakesOk_append_term {la lb : Nat} :
    ∀ (s : List Snake) (i0 j0 : Nat), snakesOk la lb i0 j0 s = true →
      i0 ≤ la → j0 ≤ lb → snakesOk la lb i0 j0 (s ++ [(la, lb, 0)]) = true := by
  intro s
  induction s with
  | nil =>
    intro i0 j0 _ hi hj
    simp [snakesOk, hi, hj]
  | cons hd rest ih =>
    intro i0 j0 hok hi hj
    obtain ⟨i, j, n⟩ := hd
    rw [snakesOk] at hok
    simp only [Bool.and_eq_true, decide_eq_true_eq] at hok
    obtain ⟨⟨⟨⟨h1, h2⟩, h3⟩, h4⟩, h5⟩ := hok
    rw [List.cons_append, snakesOk]
    simp only [Bool.and_eq_true, decide_eq_true_eq]
    exact ⟨⟨⟨⟨h1, h2⟩, h3⟩, h4⟩, ih (i + n) (j + n) h5 h3 h4⟩

/-- Inside the rectangle, the source loop over a snake's matched pairs
yields exactly the §4.4 patches. -/
theorem patchRun_eq_snakePatches (a b : List Value) :
    ∀ (n i j : Nat), i + n ≤ a.length → j + n ≤ b.length →
      patchRun a b i j n = some (snakePatches a b i j n) := by
  intro n
  induction n with
  | zero => intro i j _ _; simp [patchRun, snakePatches]
  | succ m ih =>
    intro i j hi hj
    have hia : i < a.length := by omega
    have hjb : j < b.length := by omega
    have hga : a.get? i = some (a.getD i Value.null) := by
      simp [List.get?_eq_getElem?, List.getD_eq_getElem?_getD, List.getElem?_eq_getElem hia]
    have hgb : b.get? j = some (b.getD j Value.null) := by
      simp [List.get?_eq_getElem?, List.getD_eq_getElem?_getD, List.getElem?_eq_getElem hjb]
    rw [patchRun, hga, hgb]
    rw [ih (i + 1) (j + 1) (by omega) (by omega)]
    rfl

/-- The §4.4 walk refines the source loop: on any valid snake list the loop
succeeds and produces exactly the walk's entries. -/
theorem dfsGo_eq_walkSnakes (a b : List Value) :
    ∀ (s : List Snake) (i0 j0 : Nat), snakesOk a.length b.length i0 j0 s = true →
      dfsGo a b s i0 j0 = some (walkSnakes a b s i0 j0) := by
  intro s
  induction s with
  | nil => intro i0 j0 _; rfl
  | cons hd rest ih =>
    intro i0 j0 hok
    obtain ⟨i, j, n⟩ := hd
    rw [snakesOk] at hok
    simp only [Bool.and_eq_true, decide_eq_true_eq] at hok
    obtain ⟨⟨⟨⟨h1, h2⟩, h3⟩, h4⟩, h5⟩ := hok
    rw [dfsGo, walkSnakes]
    rw [patchRun_eq_snakePatches a b n i j h3 h4]
    rw [ih (i + n) (j + n) h5]

/-- C2: for any cell lists and any monotonic in-rectangle snake list (as
§4.3 produces), the cell diff builder walks the snakes in order from
`(0, 0)` with an implicit terminal snake of length 0 at
`(len(A), len(B))`, emitting before each snake a `SEQDELETE` keyed at the
current A-position of the A-gap length when the A-gap is non-empty, then a
`SEQINSERT` keyed there carrying `B[j0:j]` when the B-gap is non-empty, and
inside each snake a `PATCH` keyed at the A-side index carrying the generic
cell diff exactly when that diff is non-empty. -/
theorem diff_cells_builder_spec (a b : List Value) (snakes : List Snake)
    (hok : snakesOk a.length b.length 0 0 snakes = true) :
    diff_from_snakes a b snakes = some (cellDiffSpec a b snakes) := by
  unfold diff_from_snakes cellDiffSpec
  exact dfsGo_eq_walkSnakes a b _ 0 0
    (snakesOk_append_term snakes 0 0 hok (Nat.zero_le _) (Nat.zero_le _))

/-- Witness for C2 on concrete lists and one snake. -/
theorem diff_cells_builder_spec_witness :
    snakesOk 2 1 0 0 [(1, 0, 0)] = true ∧
    diff_from_snakes [Value.null, Value.int 1] [Value.int 2] [(1, 0, 0)] =
      some (cellDiffSpec [Value.null, Value.int 1] [Value.int 2] [(1, 0, 0)]) :=
  ⟨by decide, diff_cells_builder_spec [Value.null, Value.int 1] [Value.int 2] [(1, 0, 0)]
    (by decide)⟩

/-- The source-sequence key of an index-keyed entry (the mapping-keyed
entry kinds do not occur in a cell-sequence diff). -/
def entryKey : Entry → Nat
  | Entry.seqdelete k _ => k
  | Entry.seqinsert k _ => k
  | Entry.patchIdx k _ => k
  | _ => 0

/-- The monotonicity part of snake-list validity: each snake starts at or
after the running position. -/
def snakesLB : Nat → Nat → List Snake → Bool
  | _, _, [] => true
  | i0, j0, (i, j, n) :: rest => i0 ≤ i && j0 ≤ j && snakesLB (i + n) (j + n) rest

theorem snakesOk_to_LB {i1 j1 : Nat} :
    ∀ (s : List Snake) (i0 j0 : Nat), snakesOk i1 j1 i0 j0 s = true →
      snakesLB i0 j0 s = true := by
  intro s
  induction s with
  | nil => intro i0 j0 _; rfl
  | cons hd rest ih =>
    intro i0 j0 hok
    obtain ⟨i, j, n⟩ := hd
    rw [snakesOk] at hok
    simp only [Bool.and_eq_true, decide_eq_true_eq] at hok
    obtain ⟨⟨⟨⟨h1, h2⟩, h3⟩, h4⟩, h5⟩ := hok
    rw [snakesLB]
    simp only [Bool.and_eq_true, decide_eq_true_eq]
    exact ⟨⟨h1, h2⟩, ih _ _ h5⟩

/-- Keys produced by the patch loop of one snake lie in `[i, i + n)` and
ascend. -/
theorem patchRun_keys (a b : List Value) :
    ∀ (n i j : Nat) (ps : List Entry), patchRun a b i j n = some ps →
      List.Pairwise (fun e f => entryKey e ≤ entryKey f) ps ∧
      ∀ e ∈ ps, i ≤ entryKey e ∧ entryKey e < i + n := by
  intro n
  induction n with
  | zero =>
    intro i j ps h
    simp [patchRun] at h
    subst h
    simp
  | succ m ih =>
    intro i j ps h
    rw [patchRun] at h
    cases hga : a.get? i with
    | none => rw [hga] at h; simp at h
    | some x =>
    cases hgb : b.get? j with
    | none => rw [hga, hgb] at h; simp at h
    | some y =>
    rw [hga, hgb] at h
    cases hrest : patchRun a b (i + 1) (j + 1) m with
    | none => rw [hrest] at h; simp at h
    | some rest =>
    rw [hrest] at h
    simp only [Option.some.injEq] at h
    subst h
    obtain ⟨hpw, hbd⟩ := ih (i + 1) (j + 1) rest hrest
    by_cases hc : (diff_single_cells x y).isEmpty
    · simp only [hc, if_true, List.nil_append]
      refine ⟨hpw, fun e he => ?_⟩
      have := hbd e he
      omega
    · simp only [hc, if_false, List.singleton_append]
      constructor
      · refine List.Pairwise.cons (fun f hf => ?_) hpw
        have hb := hbd f hf
        show entryKey (Entry.patchIdx i (diff_single_cells x y)) ≤ entryKey f
        have hk : entryKey (Entry.patchIdx i (diff_single_cells x y)) = i := rfl
        rw [hk]
        omega
      · intro e he
        rcases List.mem_cons.mp he with he | he
        · subst he
          simp only [entryKey]
          omega
        · have := hbd e he
          omega

/-- Keys emitted by the loop from position `(i0, j0)` over a monotonic
snake list ascend and stay at or above `i0`. -/
theorem dfsGo_keys (a b : List Value) :
    ∀ (s : List Snake) (i0 j0 : Nat) (di : List Entry), snakesLB i0 j0 s = true →
      dfsGo a b s i0 j0 = some di →
      List.Pairwise (fun e f => entryKey e ≤ entryKey f) di ∧
      ∀ e ∈ di, i0 ≤ entryKey e := by
  intro s
  induction s with
  | nil =>
    intro i0 j0 di _ h
    simp [dfsGo] at h
    subst h
    simp
  | cons hd rest ih =>
    intro i0 j0 di hlb h
    obtain ⟨i, j, n⟩ := hd
    rw [snakesLB] at hlb
    simp only [Bool.and_eq_true, decide_eq_true_eq] at hlb
    obtain ⟨⟨h1, h2⟩, h5⟩ := hlb
    rw [dfsGo] at h
    cases hps : patchRun a b i j n with
    | none => rw [hps] at h; simp at h
    | some ps =>
    cases hrest : dfsGo a b rest (i + n) (j + n) with
    | none => rw [hps, hrest] at h; simp at h
    | some restE =>
    rw [hps, hrest] at h
    simp only [Option.some.injEq] at h
    subst h
    obtain ⟨hpw1, hbd1⟩ := patchRun_keys a b n i j ps hps
    obtain ⟨hpw2, hbd2⟩ := ih (i + n) (j + n) restE h5 hrest
    have hdels : ∀ e ∈ (if i0 < i then [Entry.seqdelete i0 (i - i0)] else []),
        entryKey e = i0 := by
      intro e he
      split at he
      · simp at he
        subst he
        rfl
      · simp at he
    have hinss : ∀ e ∈ (if j0 < j then [Entry.seqinsert i0 (sliceL b j0 j)] else []),
        entryKey e = i0 := by
      intro e he
      split at he
      · simp at he
        subst he
        rfl
      · simp at he
    have hPdels : List.Pairwise (fun e f => entryKey e ≤ entryKey f)
        (if i0 < i then [Entry.seqdelete i0 (i - i0)] else []) := by
      split <;> simp
    have hPinss : List.Pairwise (fun e f => entryKey e ≤ entryKey f)
        (if j0 < j then [Entry.seqinsert i0 (sliceL b j0 j)] else []) := by
      split <;> simp
    have hcross : ∀ e ∈ ps, ∀ f ∈ restE, entryKey e ≤ entryKey f := by
      intro e he f hf
      have hu := (hbd1 e he).2
      have hl := hbd2 f hf
      omega
    have hPR : List.Pairwise (fun e f => entryKey e ≤ entryKey f) (ps ++ restE) :=
      List.pairwise_append.mpr ⟨hpw1, hpw2, hcross⟩
    have hlow : ∀ f ∈ ps ++ restE, i0 ≤ entryKey f := by
      intro f hf
      rcases List.mem_append.mp hf with hf | hf
      · have := (hbd1 f hf).1
        omega
      · have := hbd2 f hf
        omega
    refine ⟨?_, ?_⟩
    · rw [List.append_assoc, List.append_assoc]
      apply List.pairwise_append.mpr
      refine ⟨hPdels, ?_, ?_⟩
      · apply List.pairwise_append.mpr
        refine ⟨hPinss, hPR, fun e he f hf => ?_⟩
        rw [hinss e he]
        exact hlow f hf
      · intro e he f hf
        rw [hdels e he]
        rcases List.mem_append.mp hf with hf | hf
        · rw [hinss f hf]
        · exact hlow f hf
    · intro e he
      rw [List.append_assoc, List.append_assoc] at he
      rcases List.mem_append.mp he with he | he
      · rw [hdels e he]
      · rcases List.mem_append.mp he with he | he
        · rw [hinss e he]
        · exact hlow e he

/-- C8: on any monotonic, non-overlapping snake list contained in the full
rectangle, the edit script produced by the cell diff builder has its
entries ordered by ascending key in the source (pre-diff) sequence. -/
theorem diff_from_snakes_keys_ascending (a b : List Value) (snakes : List Snake)
    (di : List Entry) (hok : snakesOk a.length b.length 0 0 snakes = true)
    (hd : diff_from_snakes a b snakes = some di) :
    List.Pairwise (fun e f => entryKey e ≤ entryKey f) di := by
  unfold diff_from_snakes at hd
  have hlb := snakesOk_to_LB _ 0 0
    (snakesOk_append_term snakes 0 0 hok (Nat.zero_le _) (Nat.zero_le _))
  exact (dfsGo_keys a b _ 0 0 di hlb hd).1

/-- Witness for C8: a two-snake alignment with a gap on each side. -/
theorem diff_from_snakes_keys_ascending_witness :
    List.Pairwise (fun e f => entryKey e ≤ entryKey f)
      [Entry.seqdelete 0 1, Entry.seqinsert 2 [Value.int 9]] :=
  diff_from_snakes_keys_ascending [Value.null, Value.int 1] [Value.int 1, Value.int 9]
    [(1, 0, 1)] [Entry.seqdelete 0 1, Entry.seqinsert 2 [Value.int 9]]
    (by decide) (by simp [diff_from_snakes, dfsGo, patchRun, diff_single_cells, diffV,
      pyEq, sliceL, lcsDiff])

/-! ## C1 groundwork: dict lookups, Python equality, well-formedness -/

theorem lookupV_mem {k : String} :
    ∀ {l : List (String × Value)} {v : Value}, lookupV k l = some v → (k, v) ∈ l := by
  intro l
  induction l with
  | nil => intro v h; simp [lookupV] at h
  | cons p rest ih =>
    intro v h
    obtain ⟨k1, w⟩ := p
    by_cases hk : k1 = k
    · subst hk
      simp [lookupV] at h
      simp [h]
    · simp [lookupV, hk] at h
      exact List.mem_cons_of_mem _ (ih h)

theorem keyMem_of_mem {k : String} {v : Value} :
    ∀ {l : List (String × Value)}, (k, v) ∈ l → keyMem k l = true := by
  intro l
  induction l with
  | nil => intro h; simp at h
  | cons p rest ih =>
    intro h
    obtain ⟨k1, w⟩ := p
    rcases List.mem_cons.mp h with h | h
    · cases h
      simp [keyMem]
    · simp [keyMem, ih h]

theorem keyMem_isSome_lookupV (k : String) :
    ∀ (l : List (String × Value)), (lookupV k l).isSome = keyMem k l := by
  intro l
  induction l with
  | nil => rfl
  | cons p rest ih =>
    obtain ⟨k1, w⟩ := p
    by_cases hk : k1 = k <;> simp [lookupV, keyMem, hk, ih]

theorem lookup_self {k : String} {v : Value} :
    ∀ {l : List (String × Value)}, keysNodup l = true → (k, v) ∈ l →
      lookupV k l = some v := by
  intro l
  induction l with
  | nil => intro _ h; simp at h
  | cons p rest ih =>
    intro hnd h
    obtain ⟨k1, w⟩ := p
    rw [keysNodup] at hnd
    simp only [Bool.and_eq_true, Bool.not_eq_true'] at hnd
    rcases List.mem_cons.mp h with h | h
    · cases h
      simp [lookupV]
    · have hkm := keyMem_of_mem h
      have hne : k1 ≠ k := by
        intro he
        subst he
        rw [hkm] at hnd
        exact absurd hnd.1 (by simp)
      simp [lookupV, hne, ih hnd.2 h]

theorem wfList_mem {x : Value} :
    ∀ {xs : List Value}, wfList xs = true → x ∈ xs → wfV x = true := by
  intro xs
  induction xs with
  | nil => intro _ h; simp at h
  | cons y t ih =>
    intro hw h
    rw [wfList] at hw
    simp only [Bool.and_eq_true] at hw
    rcases List.mem_cons.mp h with h | h
    · subst h; exact hw.1
    · exact ih hw.2 h

theorem wfObjGo_mem {k : String} {v : Value} :
    ∀ {xs : List (String × Value)}, wfObjGo xs = true → (k, v) ∈ xs → wfV v = true := by
  intro xs
  induction xs with
  | nil => intro _ h; simp at h
  | cons p t ih =>
    intro hw h
    obtain ⟨k1, w⟩ := p
    rw [wfObjGo] at hw
    simp only [Bool.and_eq_true] at hw
    rcases List.mem_cons.mp h with h | h
    · cases h; exact hw.1
    · exact ih hw.2 h

theorem pyEqObjGo_of_lookup :
    ∀ (xs ys : List (String × Value)),
      (∀ p ∈ xs, ∃ w, lookupV p.1 ys = some w ∧ pyEq p.2 w = true) →
      pyEqObjGo xs ys = true := by
  intro xs ys
  induction xs with
  | nil => intro _; rw [pyEqObjGo]
  | cons p rest ih =>
    intro h
    obtain ⟨k, v⟩ := p
    obtain ⟨w, hw, hpe⟩ := h (k, v) (List.mem_cons_self _ _)
    rw [pyEqObjGo, hw]
    simp only [Bool.and_eq_true]
    exact ⟨hpe, ih (fun q hq => h q (List.mem_cons_of_mem _ hq))⟩

theorem pyEqObjGo_mem {k : String} {v : Value} :
    ∀ {xs ys : List (String × Value)}, pyEqObjGo xs ys = true → (k, v) ∈ xs →
      ∃ w, lookupV k ys = some w ∧ pyEq v w = true := by
  intro xs
  induction xs with
  | nil => intro ys _ h; simp at h
  | cons p rest ih =>
    intro ys hgo h
    obtain ⟨k1, v1⟩ := p
    rw [pyEqObjGo] at hgo
    simp only [Bool.and_eq_true] at hgo
    rcases List.mem_cons.mp h with h | h
    · cases h
      cases hl : lookupV k ys with
      | none => rw [hl] at hgo; simp at hgo
      | some w =>
        rw [hl] at hgo
        exact ⟨w, rfl, hgo.1⟩
    · exact ih hgo.2 h

theorem pyEqList_refl_of :
    ∀ (xs : List Value), (∀ x ∈ xs, pyEq x x = true) → pyEqList xs xs = true := by
  intro xs
  induction xs with
  | nil => intro _; rw [pyEqList]
  | cons x t ih =>
    intro h
    rw [pyEqList]
    simp only [Bool.and_eq_true]
    exact ⟨h x (List.mem_cons_self _ _), ih (fun y hy => h y (List.mem_cons_of_mem _ hy))⟩

theorem pyEq_refl_fuel :
    ∀ (N : Nat) (v : Value), sizeOf v ≤ N → wfV v = true → pyEq v v = true := by
  intro N
  induction N with
  | zero =>
    intro v hs _
    cases v <;> simp at hs <;> omega
  | succ M ih =>
    intro v hs hwf
    cases v with
    | str s => simp [pyEq]
    | int n => simp [pyEq]
    | bool b => simp [pyEq]
    | null => simp [pyEq]
    | arr xs =>
      rw [pyEq]
      rw [wfV] at hwf
      apply pyEqList_refl_of
      intro x hx
      have hsz : sizeOf x ≤ M := by
        have h1 := List.sizeOf_lt_of_mem hx
        have h2 : sizeOf (Value.arr xs) = 1 + sizeOf xs := by simp
        omega
      exact ih x hsz (wfList_mem hwf hx)
    | obj xs =>
      rw [pyEq]
      simp only [Bool.and_eq_true]
      rw [wfV] at hwf
      simp only [Bool.and_eq_true] at hwf
      refine ⟨by simp, ?_⟩
      apply pyEqObjGo_of_lookup
      intro p hp
      refine ⟨p.2, ?_, ?_⟩
      · exact lookup_self hwf.1 (by simpa using hp)
      · have hsz : sizeOf p.2 ≤ M := by
          have h1 := List.sizeOf_lt_of_mem hp
          have h2 : sizeOf (Value.obj xs) = 1 + sizeOf xs := by simp
          have h3 : sizeOf p.2 < sizeOf p := by
            obtain ⟨pk, pv⟩ := p
            simp
            try omega
          omega
        exact ih p.2 hsz (wfObjGo_mem hwf.2 (by simpa using hp))

theorem pyEq_refl {v : Value} (hwf : wfV v = true) : pyEq v v = true :=
  pyEq_refl_fuel (sizeOf v) v (le_refl _) hwf

theorem pyEqList_length :
    ∀ {xs ys : List Value}, pyEqList xs ys = true → xs.length = ys.length := by
  intro xs
  induction xs with
  | nil =>
    intro ys h
    cases ys with
    | nil => rfl
    | cons y u => simp [pyEqList] at h
  | cons x t ih =>
    intro ys h
    cases ys with
    | nil => simp [pyEqList] at h
    | cons y u =>
      rw [pyEqList] at h
      simp only [Bool.and_eq_true] at h
      simp [ih h.2]

theorem pyEqList_getD :
    ∀ {xs ys : List Value}, pyEqList xs ys = true → ∀ t, t < xs.length →
      pyEq (xs.getD t Value.null) (ys.getD t Value.null) = true := by
  intro xs
  induction xs with
  | nil => intro ys _ t ht; simp at ht
  | cons x u ih =>
    intro ys h t ht
    cases ys with
    | nil => simp [pyEqList] at h
    | cons y w =>
      rw [pyEqList] at h
      simp only [Bool.and_eq_true] at h
      cases t with
      | zero => simpa using h.1
      | succ s =>
        simp only [List.getD_cons_succ]
        exact ih h.2 s (by simpa using ht)

theorem pyEqList_of_pointwise :
    ∀ (xs ys : List Value), xs.length = ys.length →
      (∀ t, t < xs.length → pyEq (xs.getD t Value.null) (ys.getD t Value.null) = true) →
      pyEqList xs ys = true := by
  intro xs
  induction xs with
  | nil =>
    intro ys hl _
    cases ys with
    | nil => rw [pyEqList]
    | cons y u => simp at hl
  | cons x u ih =>
    intro ys hl hp
    cases ys with
    | nil => simp at hl
    | cons y w =>
      rw [pyEqList]
      simp only [Bool.and_eq_true]
      refine ⟨by simpa using hp 0 (by simp), ?_⟩
      exact ih w (by simpa using hl)
        (fun t ht => by simpa using hp (t + 1) (by simpa using Nat.succ_lt_succ ht))

theorem pyEq_getKey {x y v : Value} {k : String} (hpe : pyEq x y = true)
    (hget : getKey x k = some v) : ∃ w, getKey y k = some w ∧ pyEq v w = true := by
  cases x with
  | obj xs =>
    cases y with
    | obj ys =>
      rw [pyEq] at hpe
      simp only [Bool.and_eq_true] at hpe
      unfold getKey at hget ⊢
      exact pyEqObjGo_mem hpe.2 (lookupV_mem hget)
    | str s => simp [pyEq] at hpe
    | int n => simp [pyEq] at hpe
    | bool b => simp [pyEq] at hpe
    | null => simp [pyEq] at hpe
    | arr l => simp [pyEq] at hpe
  | str s => simp [getKey] at hget
  | int n => simp [getKey] at hget
  | bool b => simp [getKey] at hget
  | null => simp [getKey] at hget
  | arr l => simp [getKey] at hget

theorem keyMem_iff_mem_map {k : String} :
    ∀ {l : List (String × Value)}, keyMem k l = true ↔ k ∈ l.map Prod.fst := by
  intro l
  induction l with
  | nil => simp [keyMem]
  | cons p rest ih =>
    obtain ⟨k1, w⟩ := p
    by_cases hk : k1 = k
    · simp [keyMem, hk]
    · simp [keyMem, hk, ih]
      exact fun he => absurd he.symm hk

theorem keysNodup_map_nodup :
    ∀ {l : List (String × Value)}, keysNodup l = true → (l.map Prod.fst).Nodup := by
  intro l
  induction l with
  | nil => intro _; simp
  | cons p rest ih =>
    intro h
    obtain ⟨k, w⟩ := p
    rw [keysNodup] at h
    simp only [Bool.and_eq_true, Bool.not_eq_true'] at h
    simp only [List.map_cons, List.nodup_cons]
    refine ⟨fun hm => ?_, ih h.2⟩
    rw [← keyMem_iff_mem_map] at hm
    rw [hm] at h
    exact absurd h.1 (by simp)

theorem length_le_of_nodup_subset {l1 l2 : List String} (hnd : l1.Nodup)
    (hsub : ∀ x ∈ l1, x ∈ l2) : l1.length ≤ l2.length := by
  calc l1.length = l1.toFinset.card := (List.toFinset_card_of_nodup hnd).symm
  _ ≤ l2.toFinset.card :=
    Finset.card_le_card (fun x hx => List.mem_toFinset.mpr (hsub x (List.mem_toFinset.mp hx)))
  _ ≤ l2.length := List.toFinset_card_le l2

theorem mem_of_subset_of_length_le {l1 l2 : List String} (hnd : l1.Nodup)
    (hsub : ∀ x ∈ l1, x ∈ l2) (hlen : l2.length ≤ l1.length) : ∀ y ∈ l2, y ∈ l1 := by
  intro y hy
  have h1 : l1.toFinset ⊆ l2.toFinset :=
    fun x hx => List.mem_toFinset.mpr (hsub x (List.mem_toFinset.mp hx))
  have h2 : l2.toFinset.card ≤ l1.toFinset.card := by
    have := List.toFinset_card_le l2
    have := List.toFinset_card_of_nodup hnd
    omega
  have heq := Finset.eq_of_subset_of_card_le h1 h2
  have hyf : y ∈ l2.toFinset := List.mem_toFinset.mpr hy
  rw [← heq] at hyf
  exact List.mem_toFinset.mp hyf

/-! ## The modelled generic differ is empty exactly on Python-equal values -/

theorem lcsDiff_empty_iff_fuel :
    ∀ (N : Nat) (xs ys : List Value) (i : Nat), xs.length + ys.length ≤ N →
      (lcsDiff xs ys i = [] ↔ pyEqList xs ys = true) := by
  intro N
  induction N with
  | zero =>
    intro xs ys i h
    cases xs with
    | nil =>
      cases ys with
      | nil => rw [lcsDiff, pyEqList]; simp
      | cons y u => simp at h
    | cons x t => simp at h
  | succ M ih =>
    intro xs ys i h
    cases xs with
    | nil =>
      cases ys with
      | nil => rw [lcsDiff, pyEqList]; simp
      | cons y u => simp [lcsDiff, pyEqList]
    | cons x t =>
      cases ys with
      | nil => simp [lcsDiff, pyEqList]
      | cons y u =>
        rw [lcsDiff, pyEqList]
        cases hpe : pyEq x y with
        | true =>
          simp only [hpe, if_true, Bool.true_and]
          exact ih t u (i + 1) (by simp at h ⊢; omega)
        | false =>
          simp only [hpe, Bool.false_eq_true, if_false, Bool.false_and]
          split <;> simp

theorem addedKeys_empty_iff :
    ∀ (xs ys : List (String × Value)),
      (addedKeys xs ys = [] ↔ ∀ p ∈ ys, keyMem p.1 xs = true) := by
  intro xs ys
  induction ys with
  | nil => rw [addedKeys]; simp
  | cons p rest ih =>
    obtain ⟨k, w⟩ := p
    rw [addedKeys]
    cases hk : keyMem k xs with
    | true => simpa [hk] using ih
    | false =>
      simp only [hk, Bool.false_eq_true, if_false, List.singleton_append]
      simp [hk]

theorem diffObjGo_empty_iff :
    ∀ (xs ys : List (String × Value)),
      (diffObjGo xs ys = [] ↔
        ∀ p ∈ xs, ∃ w, lookupV p.1 ys = some w ∧ pyEq p.2 w = true) := by
  intro xs ys
  induction xs with
  | nil => rw [diffObjGo]; simp
  | cons p rest ih =>
    obtain ⟨k, v⟩ := p
    rw [diffObjGo]
    cases hl : lookupV k ys with
    | none =>
      simp only [List.singleton_append]
      constructor
      · intro h; simp at h
      · intro h
        obtain ⟨w, hw, _⟩ := h (k, v) (List.mem_cons_self _ _)
        rw [hl] at hw
        simp at hw
    | some w =>
      cases hpe : pyEq v w with
      | true =>
        simp only [hpe, if_true, List.nil_append]
        rw [ih]
        constructor
        · intro h p hp
          rcases List.mem_cons.mp hp with hp | hp
          · subst hp; exact ⟨w, hl, hpe⟩
          · exact h p hp
        · intro h p hp
          exact h p (List.mem_cons_of_mem _ hp)
      | false =>
        simp only [hpe, Bool.false_eq_true, if_false]
        constructor
        · intro h
          split at h <;> simp at h
        · intro h
          obtain ⟨w1, hw1, hpe1⟩ := h (k, v) (List.mem_cons_self _ _)
          rw [hl] at hw1
          cases hw1
          rw [hpe1] at hpe
          simp at hpe

theorem diffV_obj_empty_iff {xs ys : List (String × Value)}
    (hwx : wfV (Value.obj xs) = true) (hwy : wfV (Value.obj ys) = true) :
    (diffV (Value.obj xs) (Value.obj ys) = [] ↔ pyEq (Value.obj xs) (Value.obj ys) = true) := by
  rw [diffV, pyEq]
  rw [wfV] at hwx hwy
  simp only [Bool.and_eq_true] at hwx hwy
  have hndx := keysNodup_map_nodup hwx.1
  have hndy := keysNodup_map_nodup hwy.1
  constructor
  · intro h
    rw [List.append_eq_nil] at h
    have hgo := (diffObjGo_empty_iff xs ys).mp h.1
    have hadd := (addedKeys_empty_iff xs ys).mp h.2
    have hsub1 : ∀ s ∈ xs.map Prod.fst, s ∈ ys.map Prod.fst := by
      intro s hs
      obtain ⟨p, hp, hps⟩ := List.mem_map.mp hs
      obtain ⟨w, hw, _⟩ := hgo p hp
      rw [← keyMem_iff_mem_map]
      rw [← keyMem_isSome_lookupV]
      rw [hps] at hw
      simp [hw]
    have hsub2 : ∀ s ∈ ys.map Prod.fst, s ∈ xs.map Prod.fst := by
      intro s hs
      obtain ⟨p, hp, hps⟩ := List.mem_map.mp hs
      rw [← keyMem_iff_mem_map, ← hps]
      exact hadd p hp
    have hlen : xs.length = ys.length := by
      have h1 := length_le_of_nodup_subset hndx hsub1
      have h2 := length_le_of_nodup_subset hndy hsub2
      simp at h1 h2
      omega
    simp only [Bool.and_eq_true, decide_eq_true_eq]
    exact ⟨hlen, pyEqObjGo_of_lookup xs ys (fun p hp => hgo p hp)⟩
  · intro h
    simp only [Bool.and_eq_true, decide_eq_true_eq] at h
    obtain ⟨hlen, hgo⟩ := h
    rw [List.append_eq_nil]
    constructor
    · rw [diffObjGo_empty_iff]
      intro p hp
      exact pyEqObjGo_mem hgo (by simpa using hp)
    · rw [addedKeys_empty_iff]
      intro p hp
      have hsub1 : ∀ s ∈ xs.map Prod.fst, s ∈ ys.map Prod.fst := by
        intro s hs
        obtain ⟨q, hq, hqs⟩ := List.mem_map.mp hs
        obtain ⟨w, hw, _⟩ := pyEqObjGo_mem hgo (show (q.1, q.2) ∈ xs by simpa using hq)
        rw [← keyMem_iff_mem_map, ← keyMem_isSome_lookupV]
        rw [← hqs]
        simp [hw]
      have := mem_of_subset_of_length_le hndx hsub1 (by simp [hlen])
      rw [keyMem_iff_mem_map]
      exact this p.1 (List.mem_map.mpr ⟨p, hp, rfl⟩)

theorem diffV_empty_iff :
    ∀ (v w : Value), wfV v = true → wfV w = true →
      (diffV v w = [] ↔ pyEq v w = true) := by
  intro v w hwv hww
  cases v with
  | obj xs =>
    cases w with
    | obj ys => exact diffV_obj_empty_iff hwv hww
    | str s => simp [diffV, pyEq]
    | int n => simp [diffV, pyEq]
    | bool b => simp [diffV, pyEq]
    | null => simp [diffV, pyEq]
    | arr l => simp [diffV, pyEq]
  | arr xs =>
    cases w with
    | arr ys =>
      rw [diffV, pyEq]
      exact lcsDiff_empty_iff_fuel (xs.length + ys.length) xs ys 0 (le_refl _)
    | str s => simp [diffV, pyEq]
    | int n => simp [diffV, pyEq]
    | bool b => simp [diffV, pyEq]
    | null => simp [diffV, pyEq]
    | obj l => simp [diffV, pyEq]
  | str a =>
    cases w <;> simp [diffV, pyEq]
  | int a =>
    cases w <;> simp [diffV, pyEq]
  | bool a =>
    cases w <;> simp [diffV, pyEq]
  | null =>
    cases w <;> simp [diffV, pyEq]

/-! ## Properties of `popKey` (Python `dict.pop`) -/

theorem popKey_lookup {k : String} :
    ∀ {l : PyDict} {v : Value} {l2 : PyDict}, popKey k l = some (v, l2) →
      lookupV k l = some v := by
  intro l
  induction l with
  | nil => intro v l2 h; simp [popKey] at h
  | cons p rest ih =>
    intro v l2 h
    obtain ⟨k1, w⟩ := p
    by_cases hk : k1 = k
    · simp [popKey, hk] at h
      simp [lookupV, hk, h.1]
    · simp [popKey, hk] at h
      obtain ⟨q, hq, hpop, hqv, hcons⟩ := h
      simp [lookupV, hk]
      exact hqv ▸ ih hpop


theorem popKey_mem_subset {k : String} {p : String × Value} :
    ∀ {l : PyDict} {v : Value} {l2 : PyDict}, popKey k l = some (v, l2) →
      p ∈ l2 → p ∈ l := by
  intro l
  induction l with
  | nil => intro v l2 h; simp [popKey] at h
  | cons q rest ih =>
    intro v l2 h hm
    obtain ⟨k1, w⟩ := q
    by_cases hk : k1 = k
    · simp [popKey, hk] at h
      rw [← h.2] at hm
      exact List.mem_cons_of_mem _ hm
    · simp [popKey, hk] at h
      obtain ⟨q1, hq1, hpop, hqv, hcons⟩ := h
      rw [← hcons] at hm
      rcases List.mem_cons.mp hm with hm | hm
      · simp [hm]
      · exact List.mem_cons_of_mem _ (ih hpop hm)

theorem popKey_mem_of_mem {k : String} {p : String × Value} :
    ∀ {l : PyDict} {v : Value} {l2 : PyDict}, popKey k l = some (v, l2) →
      p ∈ l → p.1 ≠ k → p ∈ l2 := by
  intro l
  induction l with
  | nil => intro v l2 h; simp [popKey] at h
  | cons q rest ih =>
    intro v l2 h hm hne
    obtain ⟨k1, w⟩ := q
    by_cases hk : k1 = k
    · simp [popKey, hk] at h
      rw [← h.2]
      rcases List.mem_cons.mp hm with hm | hm
      · exfalso
        apply hne
        rw [hm, hk]
      · exact hm
    · simp [popKey, hk] at h
      obtain ⟨q1, hq1, hpop, hqv, hcons⟩ := h
      rw [← hcons]
      rcases List.mem_cons.mp hm with hm | hm
      · simp [hm]
      · exact List.mem_cons_of_mem _ (ih hpop hm hne)

theorem popKey_length {k : String} :
    ∀ {l : PyDict} {v : Value} {l2 : PyDict}, popKey k l = some (v, l2) →
      l.length = l2.length + 1 := by
  intro l
  induction l with
  | nil => intro v l2 h; simp [popKey] at h
  | cons q rest ih =>
    intro v l2 h
    obtain ⟨k1, w⟩ := q
    by_cases hk : k1 = k
    · simp [popKey, hk] at h
      simp [← h.2]
    · simp [popKey, hk] at h
      obtain ⟨q1, hq1, hpop, hqv, hcons⟩ := h
      rw [← hcons]
      simp [ih hpop]

theorem popKey_keyMem {k k1 : String} :
    ∀ {l : PyDict} {v : Value} {l2 : PyDict}, popKey k l = some (v, l2) →
      keyMem k1 l2 = true → keyMem k1 l = true := by
  intro l v l2 h hm
  rw [keyMem_iff_mem_map] at hm ⊢
  obtain ⟨p, hp, hps⟩ := List.mem_map.mp hm
  exact List.mem_map.mpr ⟨p, popKey_mem_subset h hp, hps⟩

theorem popKey_keysNodup {k : String} :
    ∀ {l : PyDict} {v : Value} {l2 : PyDict}, keysNodup l = true →
      popKey k l = some (v, l2) → keysNodup l2 = true := by
  intro l
  induction l with
  | nil => intro v l2 _ h; simp [popKey] at h
  | cons q rest ih =>
    intro v l2 hnd h
    obtain ⟨k1, w⟩ := q
    rw [keysNodup] at hnd
    simp only [Bool.and_eq_true, Bool.not_eq_true'] at hnd
    by_cases hk : k1 = k
    · simp [popKey, hk] at h
      rw [← h.2]
      exact hnd.2
    · simp [popKey, hk] at h
      obtain ⟨q1, hq1, hpop, hqv, hcons⟩ := h
      rw [← hcons]
      rw [keysNodup]
      simp only [Bool.and_eq_true, Bool.not_eq_true']
      refine ⟨?_, ih hnd.2 hpop⟩
      cases hkm : keyMem k1 hq1 with
      | false => rfl
      | true => rw [popKey_keyMem hpop hkm] at hnd; exact hnd.1

theorem popKey_not_keyMem {k : String} :
    ∀ {l : PyDict} {v : Value} {l2 : PyDict}, keysNodup l = true →
      popKey k l = some (v, l2) → keyMem k l2 = false := by
  intro l
  induction l with
  | nil => intro v l2 _ h; simp [popKey] at h
  | cons q rest ih =>
    intro v l2 hnd h
    obtain ⟨k1, w⟩ := q
    rw [keysNodup] at hnd
    simp only [Bool.and_eq_true, Bool.not_eq_true'] at hnd
    by_cases hk : k1 = k
    · simp [popKey, hk] at h
      rw [← h.2, ← hk]
      exact hnd.1
    · simp [popKey, hk] at h
      obtain ⟨q1, hq1, hpop, hqv, hcons⟩ := h
      rw [← hcons]
      rw [keyMem]
      simp only [Bool.or_eq_false_iff]
      exact ⟨by simp [hk], ih hnd.2 hpop⟩

theorem popKey_wfObjGo {k : String} :
    ∀ {l : PyDict} {v : Value} {l2 : PyDict}, wfObjGo l = true →
      popKey k l = some (v, l2) → wfObjGo l2 = true ∧ wfV v = true := by
  intro l
  induction l with
  | nil => intro v l2 _ h; simp [popKey] at h
  | cons q rest ih =>
    intro v l2 hw h
    obtain ⟨k1, w⟩ := q
    rw [wfObjGo] at hw
    simp only [Bool.and_eq_true] at hw
    by_cases hk : k1 = k
    · simp [popKey, hk] at h
      rw [← h.2, ← h.1]
      exact ⟨hw.2, hw.1⟩
    · simp [popKey, hk] at h
      obtain ⟨q1, hq1, hpop, hqv, hcons⟩ := h
      obtain ⟨hwq, hwv⟩ := ih hw.2 hpop
      rw [← hcons, ← hqv]
      rw [wfObjGo]
      simp only [Bool.and_eq_true]
      exact ⟨⟨hw.1, hwq⟩, hwv⟩

theorem popKey_of_lookup {k : String} :
    ∀ {l : PyDict} {v : Value}, lookupV k l = some v →
      ∃ l2, popKey k l = some (v, l2) := by
  intro l
  induction l with
  | nil => intro v h; simp [lookupV] at h
  | cons q rest ih =>
    intro v h
    obtain ⟨k1, w⟩ := q
    by_cases hk : k1 = k
    · simp [lookupV, hk] at h
      exact ⟨rest, by simp [popKey, hk, h]⟩
    · simp [lookupV, hk] at h
      obtain ⟨l2, hl2⟩ := ih h
      exact ⟨(k1, w) :: l2, by simp [popKey, hk, hl2]⟩

/-- Popping one key leaves the lookup of every other key unchanged. -/
theorem popKey_lookup_other {k k1 : String} (hne : k1 ≠ k) :
    ∀ {l : PyDict} {v : Value} {l2 : PyDict}, popKey k l = some (v, l2) →
      lookupV k1 l2 = lookupV k1 l := by
  intro l
  induction l with
  | nil => intro v l2 h; simp [popKey] at h
  | cons q rest ih =>
    intro v l2 h
    obtain ⟨k2, w2⟩ := q
    by_cases hk2 : k2 = k
    · simp [popKey, hk2] at h
      rw [← h.2]
      have hne2 : ¬ k2 = k1 := by rw [hk2]; exact fun he => hne he.symm
      simp [lookupV, hne2]
    · simp [popKey, hk2] at h
      obtain ⟨q1, hq1, hpop, hqv, hcons⟩ := h
      rw [← hcons]
      by_cases hk21 : k2 = k1
      · simp [lookupV, hk21]
      · simp only [lookupV, hk21, if_false]
        exact ih hpop

/-- A characterization of the per-binding dict equality check. -/
theorem pyEqObjGo_iff {xs ys : List (String × Value)} :
    pyEqObjGo xs ys = true ↔
      ∀ p ∈ xs, ∃ w, lookupV p.1 ys = some w ∧ pyEq p.2 w = true :=
  ⟨fun h p hp => pyEqObjGo_mem h (by simpa using hp), pyEqObjGo_of_lookup xs ys⟩

/-- Python dict equality decomposes across popping the same key from both
dicts (for well-formed dicts). -/
theorem pyEqObj_pop_decompose {A B : PyDict} {va vb : Value} {A2 B2 : PyDict}
    (hndA : keysNodup A = true) (hndB : keysNodup B = true)
    (hpa : popKey "cells" A = some (va, A2)) (hpb : popKey "cells" B = some (vb, B2)) :
    (pyEqObj A B = true ↔ pyEq va vb = true ∧ pyEqObj A2 B2 = true) := by
  unfold pyEqObj
  simp only [Bool.and_eq_true, decide_eq_true_eq]
  have hlA := popKey_length hpa
  have hlB := popKey_length hpb
  have hla := popKey_lookup hpa
  have hlb := popKey_lookup hpb
  constructor
  · intro h
    obtain ⟨hlen, hgo⟩ := h
    rw [pyEqObjGo_iff] at hgo
    have hcells := hgo ("cells", va) (lookupV_mem hla)
    obtain ⟨w, hw, hpe⟩ := hcells
    rw [hlb] at hw
    cases hw
    refine ⟨hpe, by omega, ?_⟩
    rw [pyEqObjGo_iff]
    intro p hp
    have hpmem : p ∈ A := popKey_mem_subset hpa hp
    have hpne : p.1 ≠ "cells" := by
      intro he
      have := keyMem_of_mem (show (p.1, p.2) ∈ A2 by simpa using hp)
      rw [he] at this
      rw [popKey_not_keyMem hndA hpa] at this
      simp at this
    obtain ⟨w1, hw1, hpe1⟩ := hgo p hpmem
    refine ⟨w1, ?_, hpe1⟩
    rw [← hw1]
    exact popKey_lookup_other hpne hpb
  · intro h
    obtain ⟨hpe, hlen, hgo⟩ := h
    refine ⟨by omega, ?_⟩
    rw [pyEqObjGo_iff] at hgo ⊢
    intro p hp
    by_cases hpc : p.1 = "cells"
    · have hps : lookupV p.1 A = some p.2 := lookup_self hndA (by simpa using hp)
      rw [hpc] at hps
      rw [hla] at hps
      cases hps
      refine ⟨vb, ?_, hpe⟩
      rw [hpc]
      exact hlb
    · have hp2 : p ∈ A2 := popKey_mem_of_mem hpa hp hpc
      obtain ⟨w1, hw1, hpe1⟩ := hgo p hp2
      refine ⟨w1, ?_, hpe1⟩
      rw [← hw1]
      exact (popKey_lookup_other hpc hpb).symm

/-! ## The strictest predicate holds along a Python-equal diagonal -/

/-- On a cell carrying its consulted fields, the strictest predicate
accepts any Python-equal partner. -/
theorem and_outputs_true_of_pyEq {x y : Value} (hf : cellFieldsOk x = true)
    (hpe : pyEq x y = true) : compare_cell_source_and_outputs x y = some true := by
  obtain ⟨ctx, srcx, hctx, hsrcx, hshx, houtx⟩ := cellFieldsOk_unpack hf
  obtain ⟨cty, hcty, hct⟩ := pyEq_getKey hpe hctx
  obtain ⟨srcy, hsrcy, hsrc⟩ := pyEq_getKey hpe hsrcx
  rw [and_outputs_reduce hctx hcty hsrcx hsrcy]
  cases hcode : pyEq ctx (Value.str "code") with
  | false => simp [hct, hsrc, hcode]
  | true =>
    obtain ⟨ox, hox⟩ := houtx hcode
    obtain ⟨oy, hoy, hoe⟩ := pyEq_getKey hpe hox
    simp only [hct, hsrc, hcode, Bool.not_true, Bool.false_eq_true, if_false, if_true]
    rw [hox, hoy]
    simp [hoe]

/-! ## Snake computation along the diagonal of two equal cell lists -/

/-- The diagonal chain of matched pairs `(i, i), (i+1, i+1), ...` of the
given length. -/
def diagChain : Nat → Nat → List (Nat × Nat)
  | _, 0 => []
  | i, d + 1 => (i, i) :: diagChain (i + 1) d

theorem chainPairs_diag (a b : List Value) (p : Pred) :
    ∀ (d i0 i1 : Nat), i1 - i0 = d →
      (∀ t, i0 ≤ t → t < i1 → p (a.getD t Value.null) (b.getD t Value.null) = some true) →
      chainPairs a b p i0 i0 i1 i1 = some (diagChain i0 d) := by
  intro d
  induction d with
  | zero =>
    intro i0 i1 hd _
    rw [chainPairs]
    have : i1 ≤ i0 := by omega
    simp [this, diagChain]
  | succ e ih =>
    intro i0 i1 hd hp
    rw [chainPairs]
    have hlt : ¬ (i1 ≤ i0 ∨ i1 ≤ i0) := by omega
    simp only [hlt, if_false]
    rw [hp i0 (le_refl _) (by omega)]
    rw [ih (i0 + 1) i1 (by omega) (fun t ht hlt2 => hp t (by omega) hlt2)]
    rfl

theorem mergeSnakes_diagChain :
    ∀ (d i : Nat), mergeSnakes (diagChain i (d + 1)) = [(i, i, d + 1)] := by
  intro d
  induction d with
  | zero =>
    intro i
    rw [diagChain, diagChain, mergeSnakes, mergeSnakes]
  | succ e ih =>
    intro i
    rw [diagChain, mergeSnakes, ih (i + 1)]
    simp

/-- Empty rectangles yield no snakes at any level. -/
theorem computeSnakes_empty (a b : List Value) (preds : List Pred)
    (l i0 j0 i1 j1 : Nat) (h : i1 ≤ i0) :
    computeSnakes a b preds l i0 j0 i1 j1 = some [] := by
  cases l with
  | zero => rw [computeSnakes]
  | succ m =>
    rw [computeSnakes]
    simp [h]

/-- On a diagonal where the level's predicate accepts every pair, the snake
computation returns the single full snake (or nothing for empty lists). -/
theorem computeSnakes_diag (a b : List Value) (preds : List Pred) (l n : Nat)
    (hp : ∀ t, t < n →
      (preds.getD l (fun _ _ => some false)) (a.getD t Value.null) (b.getD t Value.null) =
        some true) :
    computeSnakes a b preds (l + 1) 0 0 n n =
      some (if n = 0 then [] else [(0, 0, n)]) := by
  cases n with
  | zero =>
    rw [computeSnakes]
    simp
  | succ m =>
    rw [computeSnakes]
    have hlt : ¬ (Nat.succ m ≤ 0 ∨ Nat.succ m ≤ 0) := by omega
    simp only [hlt, if_false]
    rw [chainPairs_diag a b _ (m + 1) 0 (m + 1) (by omega)
      (fun t _ ht => hp t (by omega))]
    show spliceGaps a b preds l 0 0 (mergeSnakes (diagChain 0 (m + 1))) (m + 1) (m + 1) =
      some (if m + 1 = 0 then [] else [(0, 0, m + 1)])
    rw [mergeSnakes_diagChain]
    rw [spliceGaps]
    rw [computeSnakes_empty a b preds l 0 0 0 0 (le_refl _)]
    rw [spliceGaps]
    rw [computeSnakes_empty a b preds l (0 + (m + 1)) (0 + (m + 1)) (m + 1) (m + 1)
      (by omega)]
    simp

/-! ## The modelled snake computer returns valid snake lists -/

/-- Validity of a chain of matched pairs: strictly increasing in both
coordinates and inside the rectangle. -/
def pairsOk (i1 j1 : Nat) : Nat → Nat → List (Nat × Nat) → Bool
  | _, _, [] => true
  | i0, j0, (i, j) :: rest =>
    i0 ≤ i && j0 ≤ j && i < i1 && j < j1 && pairsOk i1 j1 (i + 1) (j + 1) rest

theorem pairsOk_mono_lb {i1 j1 : Nat} :
    ∀ {c : List (Nat × Nat)} {i0 j0 i2 j2 : Nat}, i2 ≤ i0 → j2 ≤ j0 →
      pairsOk i1 j1 i0 j0 c = true → pairsOk i1 j1 i2 j2 c = true := by
  intro c
  cases c with
  | nil => intro i0 j0 i2 j2 _ _ _; rfl
  | cons p rest =>
    intro i0 j0 i2 j2 hi hj h
    obtain ⟨i, j⟩ := p
    rw [pairsOk] at h ⊢
    simp only [Bool.and_eq_true, decide_eq_true_eq] at h ⊢
    obtain ⟨⟨⟨⟨h1, h2⟩, h3⟩, h4⟩, h5⟩ := h
    exact ⟨⟨⟨⟨by omega, by omega⟩, h3⟩, h4⟩, h5⟩

theorem chainPairs_pairsOk (a b : List Value) (p : Pred) :
    ∀ (d i0 j0 i1 j1 : Nat) (c : List (Nat × Nat)), (i1 - i0) + (j1 - j0) ≤ d →
      chainPairs a b p i0 j0 i1 j1 = some c → pairsOk i1 j1 i0 j0 c = true := by
  intro d
  induction d with
  | zero =>
    intro i0 j0 i1 j1 c hd h
    rw [chainPairs] at h
    have he : i1 ≤ i0 ∨ j1 ≤ j0 := by omega
    simp only [he, if_true] at h
    cases h
    rfl
  | succ e ih =>
    intro i0 j0 i1 j1 c hd h
    rw [chainPairs] at h
    by_cases he : i1 ≤ i0 ∨ j1 ≤ j0
    · simp only [he, if_true] at h
      cases h
      rfl
    · simp only [he, if_false] at h
      have hlt1 : i0 < i1 := by omega
      have hlt2 : j0 < j1 := by omega
      cases hm : p (a.getD i0 Value.null) (b.getD j0 Value.null) with
      | none => rw [hm] at h; simp at h
      | some mv =>
        rw [hm] at h
        cases mv with
        | true =>
          cases hrest : chainPairs a b p (i0 + 1) (j0 + 1) i1 j1 with
          | none => rw [hrest] at h; simp at h
          | some rest =>
            rw [hrest] at h
            simp only [Option.some.injEq] at h
            subst h
            rw [pairsOk]
            simp only [Bool.and_eq_true, decide_eq_true_eq]
            exact ⟨⟨⟨⟨le_refl _, le_refl _⟩, hlt1⟩, hlt2⟩,
              ih (i0 + 1) (j0 + 1) i1 j1 rest (by omega) hrest⟩
        | false =>
          cases hr1 : chainPairs a b p (i0 + 1) j0 i1 j1 with
          | none => rw [hr1] at h; simp at h
          | some r1 =>
          cases hr2 : chainPairs a b p i0 (j0 + 1) i1 j1 with
          | none => rw [hr1, hr2] at h; simp at h
          | some r2 =>
            rw [hr1, hr2] at h
            simp only [Option.some.injEq] at h
            subst h
            have hk1 := ih (i0 + 1) j0 i1 j1 r1 (by omega) hr1
            have hk2 := ih i0 (j0 + 1) i1 j1 r2 (by omega) hr2
            split
            · exact pairsOk_mono_lb (le_refl _) (by omega) hk2
            · exact pairsOk_mono_lb (by omega) (le_refl _) hk1

theorem mergeSnakes_ok {i1 j1 : Nat} :
    ∀ {c : List (Nat × Nat)} {i0 j0 : Nat}, pairsOk i1 j1 i0 j0 c = true →
      snakesOk i1 j1 i0 j0 (mergeSnakes c) = true := by
  intro c
  induction c with
  | nil => intro i0 j0 _; rfl
  | cons p rest ih =>
    intro i0 j0 h
    obtain ⟨i, j⟩ := p
    rw [pairsOk] at h
    simp only [Bool.and_eq_true, decide_eq_true_eq] at h
    obtain ⟨⟨⟨⟨h1, h2⟩, h3⟩, h4⟩, h5⟩ := h
    have hrec := ih h5
    rw [mergeSnakes]
    cases hm : mergeSnakes rest with
    | nil =>
      rw [snakesOk, snakesOk]
      simp only [Bool.and_eq_true, decide_eq_true_eq]
      exact ⟨⟨⟨⟨h1, h2⟩, by omega⟩, by omega⟩, trivial⟩
    | cons s t =>
      obtain ⟨i2, j2, n⟩ := s
      rw [hm] at hrec
      rw [snakesOk] at hrec
      simp only [Bool.and_eq_true, decide_eq_true_eq] at hrec
      obtain ⟨⟨⟨⟨g1, g2⟩, g3⟩, g4⟩, g5⟩ := hrec
      by_cases hadj : i2 = i + 1 ∧ j2 = j + 1
      · simp only [hadj, and_self, if_true]
        rw [snakesOk]
        simp only [Bool.and_eq_true, decide_eq_true_eq]
        refine ⟨⟨⟨⟨h1, h2⟩, by omega⟩, by omega⟩, ?_⟩
        have e1 : i + (n + 1) = i2 + n := by omega
        have e2 : j + (n + 1) = j2 + n := by omega
        rw [e1, e2]
        exact g5
      · simp only [hadj, if_false]
        rw [snakesOk]
        simp only [Bool.and_eq_true, decide_eq_true_eq]
        refine ⟨⟨⟨⟨h1, h2⟩, by omega⟩, by omega⟩, ?_⟩
        rw [snakesOk]
        simp only [Bool.and_eq_true, decide_eq_true_eq]
        exact ⟨⟨⟨⟨g1, g2⟩, g3⟩, g4⟩, g5⟩

theorem snakesOk_mono_lb {i1 j1 : Nat} :
    ∀ {s : List Snake} {i0 j0 i2 j2 : Nat}, i2 ≤ i0 → j2 ≤ j0 →
      snakesOk i1 j1 i0 j0 s = true → snakesOk i1 j1 i2 j2 s = true := by
  intro s
  cases s with
  | nil => intro i0 j0 i2 j2 _ _ _; rfl
  | cons p rest =>
    intro i0 j0 i2 j2 hi hj h
    obtain ⟨i, j, n⟩ := p
    rw [snakesOk] at h ⊢
    simp only [Bool.and_eq_true, decide_eq_true_eq] at h ⊢
    obtain ⟨⟨⟨⟨h1, h2⟩, h3⟩, h4⟩, h5⟩ := h
    exact ⟨⟨⟨⟨by omega, by omega⟩, h3⟩, h4⟩, h5⟩

theorem snakesOk_mono_ub {i1 j1 i3 j3 : Nat} (hub1 : i1 ≤ i3) (hub2 : j1 ≤ j3) :
    ∀ {s : List Snake} {i0 j0 : Nat},
      snakesOk i1 j1 i0 j0 s = true → snakesOk i3 j3 i0 j0 s = true := by
  intro s
  induction s with
  | nil => intro i0 j0 _; rfl
  | cons p rest ih =>
    intro i0 j0 h
    obtain ⟨i, j, n⟩ := p
    rw [snakesOk] at h ⊢
    simp only [Bool.and_eq_true, decide_eq_true_eq] at h ⊢
    obtain ⟨⟨⟨⟨h1, h2⟩, h3⟩, h4⟩, h5⟩ := h
    exact ⟨⟨⟨⟨h1, h2⟩, by omega⟩, by omega⟩, ih h5⟩

theorem snakesOk_append {i1 j1 im jm : Nat} (hub1 : im ≤ i1) (hub2 : jm ≤ j1) :
    ∀ {s1 : List Snake} {i0 j0 : Nat} {s2 : List Snake},
      snakesOk im jm i0 j0 s1 = true → snakesOk i1 j1 im jm s2 = true →
      i0 ≤ im → j0 ≤ jm → snakesOk i1 j1 i0 j0 (s1 ++ s2) = true := by
  intro s1
  induction s1 with
  | nil =>
    intro i0 j0 s2 _ h2 hi hj
    exact snakesOk_mono_lb hi hj h2
  | cons p rest ih =>
    intro i0 j0 s2 h1 h2 hi hj
    obtain ⟨x, y, c⟩ := p
    rw [snakesOk] at h1
    simp only [Bool.and_eq_true, decide_eq_true_eq] at h1
    obtain ⟨⟨⟨⟨g1, g2⟩, g3⟩, g4⟩, g5⟩ := h1
    rw [List.cons_append, snakesOk]
    simp only [Bool.and_eq_true, decide_eq_true_eq]
    exact ⟨⟨⟨⟨g1, g2⟩, by omega⟩, by omega⟩, ih g5 h2 g3 g4⟩

theorem computeSnakes_ok (a b : List Value) (preds : List Pred) :
    ∀ (l : Nat), ∀ (i0 j0 i1 j1 : Nat) (s : List Snake),
      computeSnakes a b preds l i0 j0 i1 j1 = some s → snakesOk i1 j1 i0 j0 s = true := by
  intro l
  induction l with
  | zero =>
    intro i0 j0 i1 j1 s h
    rw [computeSnakes] at h
    cases h
    rfl
  | succ m ihP =>
    have hQ : ∀ (sn : List Snake) (i0 j0 i1 j1 : Nat) (s : List Snake),
        snakesOk i1 j1 i0 j0 sn = true →
        spliceGaps a b preds m i0 j0 sn i1 j1 = some s →
        snakesOk i1 j1 i0 j0 s = true := by
      intro sn
      induction sn with
      | nil =>
        intro i0 j0 i1 j1 s _ h
        rw [spliceGaps] at h
        exact ihP i0 j0 i1 j1 s h
      | cons p rest ihQ =>
        intro i0 j0 i1 j1 s hok h
        obtain ⟨i, j, n⟩ := p
        rw [snakesOk] at hok
        simp only [Bool.and_eq_true, decide_eq_true_eq] at hok
        obtain ⟨⟨⟨⟨g1, g2⟩, g3⟩, g4⟩, g5⟩ := hok
        rw [spliceGaps] at h
        cases hpre : computeSnakes a b preds m i0 j0 i j with
        | none => rw [hpre] at h; simp at h
        | some pre =>
        cases hpost : spliceGaps a b preds m (i + n) (j + n) rest i1 j1 with
        | none => rw [hpre, hpost] at h; simp at h
        | some post =>
          rw [hpre, hpost] at h
          simp only [Option.some.injEq] at h
          subst h
          have hpreOk := ihP i0 j0 i j pre hpre
          have hpostOk := ihQ (i + n) (j + n) i1 j1 post g5 hpost
          apply snakesOk_append (by omega) (by omega) hpreOk ?_ g1 g2
          rw [snakesOk]
          simp only [Bool.and_eq_true, decide_eq_true_eq]
          exact ⟨⟨⟨⟨le_refl _, le_refl _⟩, g3⟩, g4⟩, hpostOk⟩
    intro i0 j0 i1 j1 s h
    rw [computeSnakes] at h
    by_cases he : i1 ≤ i0 ∨ j1 ≤ j0
    · simp only [he, if_true] at h
      cases h
      rfl
    · simp only [he, if_false] at h
      cases hc : chainPairs a b (preds.getD m (fun _ _ => some false)) i0 j0 i1 j1 with
      | none => rw [hc] at h; simp at h
      | some chain =>
        rw [hc] at h
        have hpk := chainPairs_pairsOk a b _ ((i1 - i0) + (j1 - j0)) i0 j0 i1 j1 chain
          (le_refl _) hc
        exact hQ (mergeSnakes chain) i0 j0 i1 j1 s (mergeSnakes_ok hpk) h

/-! ## An empty cell diff forces elementwise equality -/

theorem getD_mem {l : List Value} {t : Nat} (h : t < l.length) :
    l.getD t Value.null ∈ l := by
  rw [List.getD_eq_getElem?_getD, List.getElem?_eq_getElem h]
  simp [List.getElem_mem]

theorem snakePatches_eq_nil (a b : List Value) :
    ∀ {n i j : Nat}, snakePatches a b i j n = [] →
      ∀ k, k < n → diffV (a.getD (i + k) Value.null) (b.getD (j + k) Value.null) = [] := by
  intro n
  induction n with
  | zero => intro i j _ k hk; omega
  | succ m ih =>
    intro i j h k hk
    rw [snakePatches] at h
    rw [List.append_eq_nil] at h
    obtain ⟨h1, h2⟩ := h
    cases k with
    | zero =>
      simp only [Nat.add_zero]
      split at h1
      · rename_i hc
        rw [List.isEmpty_iff] at hc
        exact hc
      · simp at h1
    | succ k1 =>
      have := ih h2 k1 (by omega)
      have e1 : i + 1 + k1 = i + (k1 + 1) := by omega
      have e2 : j + 1 + k1 = j + (k1 + 1) := by omega
      rw [e1, e2] at this
      exact this

theorem snakePatches_nil_of (a b : List Value) :
    ∀ (n i j : Nat),
      (∀ k, k < n → diffV (a.getD (i + k) Value.null) (b.getD (j + k) Value.null) = []) →
      snakePatches a b i j n = [] := by
  intro n
  induction n with
  | zero => intro i j _; rfl
  | succ m ih =>
    intro i j h
    rw [snakePatches]
    have h0 := h 0 (by omega)
    simp only [Nat.add_zero] at h0
    rw [h0]
    simp only [List.isEmpty_nil, if_true, List.nil_append]
    apply ih
    intro k hk
    have := h (k + 1) (by omega)
    have e1 : i + 1 + k = i + (k + 1) := by omega
    have e2 : j + 1 + k = j + (k + 1) := by omega
    rw [e1, e2]
    exact this

theorem dfsGo_empty (a b : List Value)
    (hwa : ∀ c ∈ a, wfV c = true) (hwb : ∀ c ∈ b, wfV c = true) :
    ∀ (s : List Snake) (i0 : Nat), snakesOk a.length b.length i0 i0 s = true →
      i0 ≤ a.length → i0 ≤ b.length →
      dfsGo a b (s ++ [(a.length, b.length, 0)]) i0 i0 = some [] →
      a.length = b.length ∧
      (∀ t, i0 ≤ t → t < a.length →
        pyEq (a.getD t Value.null) (b.getD t Value.null) = true) := by
  intro s
  induction s with
  | nil =>
    intro i0 _ hia hib h
    rw [List.nil_append, dfsGo] at h
    rw [patchRun] at h
    rw [dfsGo] at h
    simp only [Option.some.injEq] at h
    rw [List.append_nil, List.append_nil, List.append_eq_nil] at h
    obtain ⟨h1, h2⟩ := h
    have hla : a.length ≤ i0 := by
      by_contra hc
      simp only [not_le] at hc
      rw [if_pos hc] at h1
      simp at h1
    have hlb : b.length ≤ i0 := by
      by_contra hc
      simp only [not_le] at hc
      rw [if_pos hc] at h2
      simp at h2
    refine ⟨by omega, fun t ht hlt => ?_⟩
    omega
  | cons p rest ih =>
    intro i0 hok hia hib h
    obtain ⟨i, j, n⟩ := p
    rw [snakesOk] at hok
    simp only [Bool.and_eq_true, decide_eq_true_eq] at hok
    obtain ⟨⟨⟨⟨g1, g2⟩, g3⟩, g4⟩, g5⟩ := hok
    rw [List.cons_append, dfsGo] at h
    cases hps : patchRun a b i j n with
    | none => rw [hps] at h; simp at h
    | some ps =>
    cases hrest : dfsGo a b (rest ++ [(a.length, b.length, 0)]) (i + n) (j + n) with
    | none => rw [hps, hrest] at h; simp at h
    | some restE =>
      rw [hps, hrest] at h
      simp only [Option.some.injEq] at h
      rw [List.append_eq_nil, List.append_eq_nil, List.append_eq_nil] at h
      obtain ⟨⟨⟨hdel, hins⟩, hpsE⟩, hrestEq⟩ := h
      have hii : i = i0 := by
        by_contra hc
        rw [if_pos (by omega)] at hdel
        simp at hdel
      have hjj : j = i0 := by
        by_contra hc
        rw [if_pos (by omega)] at hins
        simp at hins
      rw [hii] at hps g3 g5 hrest
      rw [hjj] at hps g4 g5 hrest
      rw [patchRun_eq_snakePatches a b n i0 i0 g3 g4] at hps
      simp only [Option.some.injEq] at hps
      rw [← hps] at hpsE
      have hpw := snakePatches_eq_nil a b hpsE
      subst hrestEq
      obtain ⟨hlen, hrest2⟩ := ih (i0 + n) (by simpa using g5) g3 g4 (by simpa using hrest)
      refine ⟨hlen, fun t ht hlt => ?_⟩
      by_cases htn : t < i0 + n
      · have hk := hpw (t - i0) (by omega)
        have e1 : i0 + (t - i0) = t := by omega
        rw [e1] at hk
        have hta : a.getD t Value.null ∈ a := getD_mem (by omega)
        have htb : b.getD t Value.null ∈ b := getD_mem (by omega)
        exact (diffV_empty_iff _ _ (hwa _ hta) (hwb _ htb)).mp hk
      · exact hrest2 t (by omega) hlt

/-! ## The cell diff on Python-equal lists -/

/-- Unfolding of `diff_cells` to its two stages. -/
theorem diff_cells_eq (R : RatioFns) (a b : List Value) :
    diff_cells R a b =
      match computeSnakes a b
          [compare_cell_source_approximate R, compare_cell_source_exact,
           compare_cell_source_and_outputs] 3 0 0 a.length b.length with
      | none => none
      | some snakes => diff_from_snakes a b snakes := rfl

theorem diff_cells_empty_implies (R : RatioFns) (a b : List Value)
    (hwa : ∀ c ∈ a, wfV c = true) (hwb : ∀ c ∈ b, wfV c = true)
    (h : diff_cells R a b = some []) : pyEqList a b = true := by
  rw [diff_cells_eq] at h
  cases hcs : computeSnakes a b
      [compare_cell_source_approximate R, compare_cell_source_exact,
       compare_cell_source_and_outputs] 3 0 0 a.length b.length with
  | none => rw [hcs] at h; simp at h
  | some snakes =>
    rw [hcs] at h
    have hok := computeSnakes_ok a b _ 3 0 0 a.length b.length snakes hcs
    obtain ⟨hlen, hpt⟩ := dfsGo_empty a b hwa hwb snakes 0 hok
      (Nat.zero_le _) (Nat.zero_le _) h
    exact pyEqList_of_pointwise a b hlen (fun t ht => hpt t (Nat.zero_le _) ht)

theorem diff_cells_of_pyEq (R : RatioFns) (a b : List Value)
    (hfa : ∀ c ∈ a, cellFieldsOk c = true)
    (hwa : ∀ c ∈ a, wfV c = true) (hwb : ∀ c ∈ b, wfV c = true)
    (hpe : pyEqList a b = true) : diff_cells R a b = some [] := by
  have hlen := pyEqList_length hpe
  have hdiag : ∀ t, t < a.length →
      (([compare_cell_source_approximate R, compare_cell_source_exact,
         compare_cell_source_and_outputs] : List Pred).getD 2
        (fun _ _ => some false)) (a.getD t Value.null) (b.getD t Value.null) = some true := by
    intro t ht
    show compare_cell_source_and_outputs (a.getD t Value.null) (b.getD t Value.null) =
      some true
    exact and_outputs_true_of_pyEq (hfa _ (getD_mem ht)) (pyEqList_getD hpe t ht)
  rw [diff_cells_eq]
  rw [← hlen]
  rw [computeSnakes_diag a b _ 2 a.length hdiag]
  by_cases hz : a.length = 0
  · have ha : a = [] := List.length_eq_zero.mp hz
    have hb : b = [] := List.length_eq_zero.mp (by omega)
    subst ha
    subst hb
    rfl
  · simp only [hz, if_false]
    rw [diff_from_snakes, List.cons_append, dfsGo]
    rw [patchRun_eq_snakePatches a b a.length 0 0 (by omega) (by omega)]
    have hsp : snakePatches a b 0 0 a.length = [] := by
      apply snakePatches_nil_of
      intro k hk
      apply (diffV_empty_iff _ _ (hwa _ (getD_mem (by omega)))
        (hwb _ (getD_mem (by omega)))).mpr
      exact pyEqList_getD hpe (0 + k) (by omega)
    rw [hsp]
    rw [List.nil_append, dfsGo]
    rw [patchRun]
    rw [dfsGo]
    have h1 : ¬ (0 + a.length < a.length) := by omega
    have h2 : ¬ (0 + a.length < b.length) := by omega
    have h3 : ¬ (0 < 0) := by omega
    simp only [h1, h2, h3, if_false, List.append_nil, List.nil_append]

/-! ## C1: `diff_notebooks` is empty exactly on deeply equal documents -/

/-- A well-formed cell record for the purposes of the whole diff: carries
the consulted fields and has well-formed (unique-keyed) nested dicts. -/
def cellOk (c : Value) : Bool := cellFieldsOk c && wfV c

/-- A well-formed notebook document: a dict with unique keys, well-formed
values, and a `cells` key holding a list of well-formed cells. -/
def docWF (d : PyDict) : Bool :=
  keysNodup d && wfObjGo d &&
    (match lookupV "cells" d with
     | some (Value.arr cs) => cs.all cellOk
     | _ => false)

theorem docWF_unpack {d : PyDict} (h : docWF d = true) :
    keysNodup d = true ∧ wfObjGo d = true ∧
    ∃ cs, lookupV "cells" d = some (Value.arr cs) ∧
      (∀ c ∈ cs, cellFieldsOk c = true ∧ wfV c = true) := by
  unfold docWF at h
  simp only [Bool.and_eq_true] at h
  obtain ⟨⟨h1, h2⟩, h3⟩ := h
  refine ⟨h1, h2, ?_⟩
  cases hl : lookupV "cells" d with
  | none => rw [hl] at h3; simp at h3
  | some v =>
    rw [hl] at h3
    cases v with
    | arr cs =>
      refine ⟨cs, rfl, fun c hc => ?_⟩
      have := List.all_eq_true.mp h3 c hc
      unfold cellOk at this
      simp only [Bool.and_eq_true] at this
      exact this
    | str s => simp at h3
    | int n => simp at h3
    | bool b => simp at h3
    | null => simp at h3
    | obj o => simp at h3

theorem pyEqObj_refl {d : PyDict} (hnd : keysNodup d = true) (hw : wfObjGo d = true) :
    pyEqObj d d = true := by
  unfold pyEqObj
  simp only [Bool.and_eq_true, decide_eq_true_eq]
  refine ⟨trivial, pyEqObjGo_of_lookup d d (fun p hp => ?_)⟩
  refine ⟨p.2, lookup_self hnd (by simpa using hp), ?_⟩
  exact pyEq_refl (wfObjGo_mem hw (by simpa using hp))

/-- Unfolding of `diff_notebooks` once both pops are known. -/
theorem diff_notebooks_reduce (R : RatioFns) {A B A2 B2 : PyDict}
    {acl bcl : List Value}
    (hpa : popKey "cells" A = some (Value.arr acl, A2))
    (hpb : popKey "cells" B = some (Value.arr bcl, B2)) :
    diff_notebooks R A B =
      match diff_cells R acl bcl with
      | none => none
      | some cdiff =>
        some (if cdiff.isEmpty then diffV (Value.obj A2) (Value.obj B2)
          else diffV (Value.obj A2) (Value.obj B2) ++ [Entry.patchKey "cells" cdiff]) := by
  unfold diff_notebooks
  rw [hpa, hpb]
  rfl

/-- The iff of C1, as a reusable lemma. -/
theorem diff_notebooks_empty_iff_aux (R : RatioFns) (A B : PyDict)
    (hA : docWF A = true) (hB : docWF B = true) :
    (diff_notebooks R A B = some [] ↔ pyEqObj A B = true) := by
  obtain ⟨hndA, hwA, acl, hclA, hcellsA⟩ := docWF_unpack hA
  obtain ⟨hndB, hwB, bcl, hclB, hcellsB⟩ := docWF_unpack hB
  obtain ⟨A2, hpopA⟩ := popKey_of_lookup hclA
  obtain ⟨B2, hpopB⟩ := popKey_of_lookup hclB
  obtain ⟨hwgA2, hwvA⟩ := popKey_wfObjGo hwA hpopA
  obtain ⟨hwgB2, hwvB⟩ := popKey_wfObjGo hwB hpopB
  have hndA2 := popKey_keysNodup hndA hpopA
  have hndB2 := popKey_keysNodup hndB hpopB
  have hwObjA2 : wfV (Value.obj A2) = true := by
    rw [wfV]
    simp [hndA2, hwgA2]
  have hwObjB2 : wfV (Value.obj B2) = true := by
    rw [wfV]
    simp [hndB2, hwgB2]
  have hwla : ∀ c ∈ acl, wfV c = true := fun c hc => (hcellsA c hc).2
  have hwlb : ∀ c ∈ bcl, wfV c = true := fun c hc => (hcellsB c hc).2
  rw [diff_notebooks_reduce R hpopA hpopB]
  constructor
  · intro h
    cases hd : diff_cells R acl bcl with
    | none => rw [hd] at h; simp at h
    | some cdiff =>
      rw [hd] at h
      simp only [Option.some.injEq] at h
      have hcd : cdiff = [] ∧ diffV (Value.obj A2) (Value.obj B2) = [] := by
        cases he : cdiff.isEmpty with
        | true =>
          rw [he] at h
          simp only [if_true] at h
          exact ⟨List.isEmpty_iff.mp he, h⟩
        | false =>
          rw [he] at h
          simp only [Bool.false_eq_true, if_false] at h
          rw [List.append_eq_nil] at h
          simp at h
      rw [hcd.1] at hd
      have hpl := diff_cells_empty_implies R acl bcl hwla hwlb hd
      have hobj := (diffV_empty_iff _ _ hwObjA2 hwObjB2).mp hcd.2
      apply (pyEqObj_pop_decompose hndA hndB hpopA hpopB).mpr
      constructor
      · rw [pyEq]
        exact hpl
      · rw [pyEq] at hobj
        exact hobj
  · intro h
    obtain ⟨hpeCells, hpeRest⟩ := (pyEqObj_pop_decompose hndA hndB hpopA hpopB).mp h
    rw [pyEq] at hpeCells
    have hd := diff_cells_of_pyEq R acl bcl (fun c hc => (hcellsA c hc).1) hwla hwlb hpeCells
    rw [hd]
    have hnb : diffV (Value.obj A2) (Value.obj B2) = [] := by
      apply (diffV_empty_iff _ _ hwObjA2 hwObjB2).mpr
      rw [pyEq]
      exact hpeRest
    simp [hnb]

/-- C1: `diff_notebooks` returns the empty edit script exactly when the two
well-formed input documents are deeply (Python-)equal; in particular, the
diff of a document with itself is empty. -/
theorem diff_notebooks_empty_iff_deep_equal (R : RatioFns) (A B : PyDict)
    (hA : docWF A = true) (hB : docWF B = true) :
    (diff_notebooks R A B = some [] ↔ pyEqObj A B = true) ∧
    diff_notebooks R A A = some [] := by
  refine ⟨diff_notebooks_empty_iff_aux R A B hA hB, ?_⟩
  obtain ⟨hndA, hwA, _, _, _⟩ := docWF_unpack hA
  exact (diff_notebooks_empty_iff_aux R A A hA hA).mpr (pyEqObj_refl hndA hwA)

/-- Witness for C1 at a concrete one-key document. -/
theorem diff_notebooks_empty_iff_deep_equal_witness :
    diff_notebooks constRatio [("cells", Value.arr [])] [("cells", Value.arr [])] =
      some [] :=
  (diff_notebooks_empty_iff_deep_equal constRatio
    [("cells", Value.arr [])] [("cells", Value.arr [])]
    (by simp [docWF, keysNodup, keyMem, wfObjGo, wfV, wfList, lookupV])
    (by simp [docWF, keysNodup, keyMem, wfObjGo, wfV, wfList, lookupV])).2

end Nbdime
